import Mathlib

/-!
Verification of the corset statement-packing engine (github.com/jakebark/corset).

The development shallowly embeds the Go sources:
  internal/config/config.go   - platform constants
  internal/core/policies.go   - statement records, first-fit-decreasing packing
  internal/core/outputs.go    - document assembly and output orchestration
  internal/core/process.go    - the pipeline entry point
Pure functions become Lean functions; Go slices of statements become lists,
with a possibly-nil slice result rendered as an Option (none models the nil
slice, which the program uses as its infeasible signal).  JSON serialization
(Go encoding/json, external to the repository) is modelled from its documented
behaviour and the output format fixed in the specification.
-/

namespace Corset

/-! ### Configuration constants (internal/config/config.go) -/

/-- MaxPolicySize from config.go: the AWS SCP character limit. -/
def MaxPolicySize : Int := 5120

/-- DefaultMaxFiles from config.go. -/
def DefaultMaxFiles : Nat := 5

/-- SCPBaseSizeMinified from config.go: character overhead of the minified
document skeleton, excluding the two statement-array brackets. -/
def SCPBaseSizeMinified : Int := 37

/-- SCPBaseSizeWithWS from config.go: character overhead of the formatted
document skeleton, excluding the two statement-array brackets. -/
def SCPBaseSizeWithWS : Int := 46

/-- SCPVersion from config.go. -/
def SCPVersion : String := "2012-10-17"

/-! ### JSON values

Modelled from the spec: a statement is an opaque mapping of string keys to
arbitrary JSON-compatible values.  Go stores a statement as
map [string] interface, i.e. an unordered string-keyed map; here an object is
an association list, canonical when its keys are strictly increasing (the
order Go emits).  Numbers are modelled by their integer subset to keep the
embedding free of floating point. -/

inductive JsonValue where
  | null
  | bool (b : Bool)
  | num (n : Int)
  | str (s : String)
  | arr (elems : List JsonValue)
  | obj (fields : List (String × JsonValue))

mutual

/-- Boolean equality on JSON values (decidable equality is derived from it). -/
def beqV : JsonValue → JsonValue → Bool
  | .null, .null => true
  | .bool a, .bool b => a == b
  | .num a, .num b => a == b
  | .str a, .str b => a == b
  | .arr xs, .arr ys => beqL xs ys
  | .obj xs, .obj ys => beqF xs ys
  | _, _ => false

/-- Boolean equality on JSON value lists. -/
def beqL : List JsonValue → List JsonValue → Bool
  | [], [] => true
  | x :: xs, y :: ys => beqV x y && beqL xs ys
  | _, _ => false

/-- Boolean equality on JSON field lists. -/
def beqF : List (String × JsonValue) → List (String × JsonValue) → Bool
  | [], [] => true
  | (k1, v1) :: xs, (k2, v2) :: ys => k1 == k2 && beqV v1 v2 && beqF xs ys
  | _, _ => false

end

mutual

theorem beqV_iff : ∀ a b : JsonValue, beqV a b = true ↔ a = b
  | .null, b => by cases b <;> simp [beqV]
  | .bool x, b => by cases b <;> simp [beqV]
  | .num x, b => by cases b <;> simp [beqV]
  | .str x, b => by cases b <;> simp [beqV]
  | .arr xs, b => by
      cases b <;> simp [beqV]
      exact beqL_iff xs _
  | .obj xs, b => by
      cases b <;> simp [beqV]
      exact beqF_iff xs _

theorem beqL_iff : ∀ xs ys : List JsonValue, beqL xs ys = true ↔ xs = ys
  | [], ys => by cases ys <;> simp [beqL]
  | x :: xs, ys => by
      cases ys with
      | nil => simp [beqL]
      | cons y ys =>
          simp [beqL, Bool.and_eq_true, beqV_iff x y, beqL_iff xs ys]

theorem beqF_iff : ∀ xs ys : List (String × JsonValue), beqF xs ys = true ↔ xs = ys
  | [], ys => by cases ys <;> simp [beqF]
  | (k1, v1) :: xs, ys => by
      cases ys with
      | nil => simp [beqF]
      | cons y ys =>
          obtain ⟨k2, v2⟩ := y
          simp [beqF, Bool.and_eq_true, beqV_iff v1 v2, beqF_iff xs ys, and_assoc]

end

instance : DecidableEq JsonValue := fun a b => decidable_of_iff _ (beqV_iff a b)

/-- A statement content: the Go map underlying one policy statement. -/
abbrev Fields := List (String × JsonValue)

/-! ### Core data types (internal/core/policies.go) -/

/-- Statement from policies.go: the opaque content map plus the serialized
size recorded at extraction time.  Size is a Go int, hence Int here. -/
structure Statement where
  content : Fields
  size : Int
deriving DecidableEq

/-- UserInput from internal/inputs/inputs.go. -/
structure UserInput where
  target : String
  replace : Bool
  whitespace : Bool
  isDirectory : Bool
  maxFiles : Nat
deriving DecidableEq

/-! ### The packing engine (packPolicies in internal/core/policies.go)

packPolicies first sorts the statements by size, largest first, with
sort.Slice.  Go documents sort.Slice as an unstable sort: the order among
equal-size statements is decided by the runtime and is not guaranteed.  The
model uses a deterministic descending insertion sort; every theorem below
about the packing depends only on the output being some size-descending
permutation of the input, which sort.Slice does guarantee. -/

/-- Insert a statement into a size-descending list, after any equal sizes. -/
def insertBySize (s : Statement) : List Statement → List Statement
  | [] => [s]
  | t :: ts => if t.size < s.size then s :: t :: ts else t :: insertBySize s ts

/-- The size-descending sort performed by packPolicies before placement. -/
def sortBySizeDesc : List Statement → List Statement
  | [] => []
  | s :: ss => insertBySize s (sortBySizeDesc ss)

/-- One scan of the inner placement loop of packPolicies: try each group in
index order, and put the statement into the first group where the running
size plus the statement plus a separator still fits.  Returns the updated
groups and running sizes, or none when no group can take the statement. -/
def tryPlace (stmt : Statement) :
    List (List Statement) → List Int → Option (List (List Statement) × List Int)
  | f :: fs, sz :: szs =>
      let separator : Int := if f.length > 0 then 1 else 0
      if sz + stmt.size + separator ≤ MaxPolicySize then
        some ((f ++ [stmt]) :: fs, (sz + stmt.size + separator) :: szs)
      else
        match tryPlace stmt fs szs with
        | some (fs2, szs2) => some (f :: fs2, sz :: szs2)
        | none => none
  | _, _ => none

/-- The outer loop of packPolicies: place each statement in turn; the whole
run fails as soon as one statement cannot be placed. -/
def ffdAll : List Statement → List (List Statement) → List Int →
    Option (List (List Statement) × List Int)
  | [], files, sizes => some (files, sizes)
  | s :: rest, files, sizes =>
      match tryPlace s files sizes with
      | some (files2, sizes2) => ffdAll rest files2 sizes2
      | none => none

/-- packPolicies from policies.go.  The Go function returns a [][]Statement
whose nil value doubles as the infeasible signal; the model returns none
exactly when Go returns nil: on placement failure, and also when the final
result slice never received an append (empty input), since Go then returns
the nil-valued result variable. -/
def packPolicies (userInput : UserInput) (statements : List Statement)
    (baseSize : Int) : Option (List (List Statement)) :=
  let sorted := sortBySizeDesc statements
  let files : List (List Statement) := List.replicate userInput.maxFiles []
  let fileSizes : List Int := List.replicate userInput.maxFiles baseSize
  match ffdAll sorted files fileSizes with
  | none => none
  | some (files2, _) =>
      let result := files2.filter (fun f => f.length > 0)
      if result.isEmpty then none else some result

/-- packAllStatements from policies.go: choose the base overhead from the
whitespace option, then pack. -/
def packAllStatements (userInput : UserInput) (statements : List Statement) :
    Option (List (List Statement)) :=
  let baseSize := if userInput.whitespace then SCPBaseSizeWithWS else SCPBaseSizeMinified
  packPolicies userInput statements baseSize

/-! ### Sorting lemmas -/

theorem insertBySize_perm (s : Statement) :
    ∀ l : List Statement, (insertBySize s l).Perm (s :: l)
  | [] => List.Perm.refl _
  | t :: ts => by
      by_cases h : t.size < s.size
      · simp [insertBySize, h]
      · simp only [insertBySize, if_neg h]
        exact ((insertBySize_perm s ts).cons t).trans (List.Perm.swap s t ts)

theorem sortBySizeDesc_perm : ∀ l : List Statement, (sortBySizeDesc l).Perm l
  | [] => List.Perm.refl _
  | s :: ss =>
      (insertBySize_perm s (sortBySizeDesc ss)).trans ((sortBySizeDesc_perm ss).cons s)

/-- Membership in the result of an insertion. -/
theorem mem_insertBySize {x s : Statement} {l : List Statement}
    (h : x ∈ insertBySize s l) : x = s ∨ x ∈ l :=
  List.mem_cons.mp ((insertBySize_perm s l).mem_iff.mp h)

theorem insertBySize_pairwise (s : Statement) :
    ∀ l : List Statement, l.Pairwise (fun a b => b.size ≤ a.size) →
      (insertBySize s l).Pairwise (fun a b => b.size ≤ a.size)
  | [], _ => by simp [insertBySize]
  | t :: ts, h => by
      rcases List.pairwise_cons.mp h with ⟨ht, hts⟩
      by_cases hlt : t.size < s.size
      · simp only [insertBySize, if_pos hlt]
        refine List.pairwise_cons.mpr ⟨?_, h⟩
        intro x hx
        rcases List.mem_cons.mp hx with rfl | hx
        · omega
        · have := ht x hx; omega
      · simp only [insertBySize, if_neg hlt]
        refine List.pairwise_cons.mpr ⟨?_, insertBySize_pairwise s ts hts⟩
        intro x hx
        rcases mem_insertBySize hx with rfl | hx
        · omega
        · exact ht x hx

theorem sortBySizeDesc_pairwise :
    ∀ l : List Statement, (sortBySizeDesc l).Pairwise (fun a b => b.size ≤ a.size)
  | [] => List.Pairwise.nil
  | s :: ss => insertBySize_pairwise s (sortBySizeDesc ss) (sortBySizeDesc_pairwise ss)

/-! ### Placement-loop lemmas -/

/-- The bookkeeping relation between one group and its running size counter:
the counter equals the base overhead plus the statement sizes plus one comma
separator per statement after the first, and a group that has received a
statement fits in the character budget. -/
def GroupOk (baseSize : Int) (g : List Statement) (sz : Int) : Prop :=
  sz = baseSize + (g.map (·.size)).sum +
      (if g.length ≤ 1 then 0 else (g.length : Int) - 1) ∧
    (g ≠ [] → sz ≤ MaxPolicySize)

theorem tryPlace_groupOk {stmt : Statement} {baseSize : Int} :
    ∀ {files : List (List Statement)} {sizes : List Int}
      {files2 : List (List Statement)} {sizes2 : List Int},
      tryPlace stmt files sizes = some (files2, sizes2) →
      List.Forall₂ (GroupOk baseSize) files sizes →
      List.Forall₂ (GroupOk baseSize) files2 sizes2 := by
  intro files sizes files2 sizes2 h hinv
  induction hinv generalizing files2 sizes2 with
  | nil => simp [tryPlace] at h
  | @cons f sz fs szs hok htail ih =>
      simp only [tryPlace] at h
      by_cases hfit : sz + stmt.size + (if f.length > 0 then (1 : Int) else 0) ≤ MaxPolicySize
      · rw [if_pos hfit] at h
        simp only [Option.some.injEq, Prod.mk.injEq] at h
        obtain ⟨rfl, rfl⟩ := h
        refine List.Forall₂.cons ⟨?_, fun _ => hfit⟩ htail
        obtain ⟨hval, _⟩ := hok
        rcases f with _ | ⟨a, as⟩
        · simp at hval ⊢
          omega
        · simp only [List.map_append, List.sum_append, List.length_append,
            List.map_cons, List.sum_cons, List.map_nil, List.sum_nil,
            List.length_cons, List.length_nil] at hval ⊢
          split_ifs at hval ⊢ <;> push_cast at hval ⊢ <;> omega
      · rw [if_neg hfit] at h
        cases htp : tryPlace stmt fs szs with
        | none => rw [htp] at h; exact absurd h (by simp)
        | some p =>
            obtain ⟨fs2, szs2⟩ := p
            rw [htp] at h
            simp only [Option.some.injEq, Prod.mk.injEq] at h
            obtain ⟨rfl, rfl⟩ := h
            exact List.Forall₂.cons hok (ih htp)

theorem tryPlace_flatten {stmt : Statement} :
    ∀ {files : List (List Statement)} {sizes : List Int}
      {files2 : List (List Statement)} {sizes2 : List Int},
      tryPlace stmt files sizes = some (files2, sizes2) →
      files2.flatten.Perm (stmt :: files.flatten)
  | [], [], _, _, h => by simp [tryPlace] at h
  | [], _ :: _, _, _, h => by simp [tryPlace] at h
  | _ :: _, [], _, _, h => by simp [tryPlace] at h
  | f :: fs, sz :: szs, files2, sizes2, h => by
      simp only [tryPlace] at h
      by_cases hfit : sz + stmt.size + (if f.length > 0 then (1 : Int) else 0) ≤ MaxPolicySize
      · rw [if_pos hfit] at h
        simp only [Option.some.injEq, Prod.mk.injEq] at h
        obtain ⟨rfl, rfl⟩ := h
        simp only [List.flatten_cons, List.append_assoc, List.singleton_append]
        exact List.perm_middle
      · rw [if_neg hfit] at h
        cases htp : tryPlace stmt fs szs with
        | none => rw [htp] at h; exact absurd h (by simp)
        | some p =>
            obtain ⟨fs2, szs2⟩ := p
            rw [htp] at h
            simp only [Option.some.injEq, Prod.mk.injEq] at h
            obtain ⟨rfl, rfl⟩ := h
            have h2 : (f ++ fs2.flatten).Perm (f ++ stmt :: fs.flatten) :=
              (tryPlace_flatten htp).append_left f
            have h3 : (f ++ stmt :: fs.flatten).Perm (stmt :: (f ++ fs.flatten)) :=
              List.perm_middle
            simpa using h2.trans h3

theorem tryPlace_length {stmt : Statement} :
    ∀ {files : List (List Statement)} {sizes : List Int}
      {files2 : List (List Statement)} {sizes2 : List Int},
      tryPlace stmt files sizes = some (files2, sizes2) →
      files2.length = files.length ∧ sizes2.length = sizes.length
  | [], [], _, _, h => by simp [tryPlace] at h
  | [], _ :: _, _, _, h => by simp [tryPlace] at h
  | _ :: _, [], _, _, h => by simp [tryPlace] at h
  | f :: fs, sz :: szs, files2, sizes2, h => by
      simp only [tryPlace] at h
      by_cases hfit : sz + stmt.size + (if f.length > 0 then (1 : Int) else 0) ≤ MaxPolicySize
      · rw [if_pos hfit] at h
        simp only [Option.some.injEq, Prod.mk.injEq] at h
        obtain ⟨rfl, rfl⟩ := h
        simp
      · rw [if_neg hfit] at h
        cases htp : tryPlace stmt fs szs with
        | none => rw [htp] at h; exact absurd h (by simp)
        | some p =>
            obtain ⟨fs2, szs2⟩ := p
            rw [htp] at h
            simp only [Option.some.injEq, Prod.mk.injEq] at h
            obtain ⟨rfl, rfl⟩ := h
            have := tryPlace_length htp
            simp [this.1, this.2]

theorem ffdAll_groupOk {baseSize : Int} :
    ∀ {stmts : List Statement} {files : List (List Statement)} {sizes : List Int}
      {files2 : List (List Statement)} {sizes2 : List Int},
      ffdAll stmts files sizes = some (files2, sizes2) →
      List.Forall₂ (GroupOk baseSize) files sizes →
      List.Forall₂ (GroupOk baseSize) files2 sizes2
  | [], _, _, _, _, h, hinv => by
      simp only [ffdAll, Option.some.injEq, Prod.mk.injEq] at h
      obtain ⟨rfl, rfl⟩ := h
      exact hinv
  | s :: rest, files, sizes, files2, sizes2, h, hinv => by
      simp only [ffdAll] at h
      cases htp : tryPlace s files sizes with
      | none => rw [htp] at h; exact absurd h (by simp)
      | some p =>
          obtain ⟨fs2, szs2⟩ := p
          rw [htp] at h
          exact ffdAll_groupOk h (tryPlace_groupOk htp hinv)

theorem ffdAll_flatten :
    ∀ {stmts : List Statement} {files : List (List Statement)} {sizes : List Int}
      {files2 : List (List Statement)} {sizes2 : List Int},
      ffdAll stmts files sizes = some (files2, sizes2) →
      files2.flatten.Perm (files.flatten ++ stmts)
  | [], _, _, _, _, h => by
      simp only [ffdAll, Option.some.injEq, Prod.mk.injEq] at h
      obtain ⟨rfl, rfl⟩ := h
      simp
  | s :: rest, files, sizes, files2, sizes2, h => by
      simp only [ffdAll] at h
      cases htp : tryPlace s files sizes with
      | none => rw [htp] at h; exact absurd h (by simp)
      | some p =>
          obtain ⟨fs2, szs2⟩ := p
          rw [htp] at h
          have h1 : files2.flatten.Perm (fs2.flatten ++ rest) := ffdAll_flatten h
          have h2 : (fs2.flatten ++ rest).Perm ((s :: files.flatten) ++ rest) :=
            (tryPlace_flatten htp).append_right rest
          have h3 : (s :: (files.flatten ++ rest)).Perm (files.flatten ++ s :: rest) :=
            List.perm_middle.symm
          exact (h1.trans h2).trans h3

theorem ffdAll_length :
    ∀ {stmts : List Statement} {files : List (List Statement)} {sizes : List Int}
      {files2 : List (List Statement)} {sizes2 : List Int},
      ffdAll stmts files sizes = some (files2, sizes2) →
      files2.length = files.length
  | [], _, _, _, _, h => by
      simp only [ffdAll, Option.some.injEq, Prod.mk.injEq] at h
      obtain ⟨rfl, rfl⟩ := h
      rfl
  | s :: rest, files, sizes, files2, sizes2, h => by
      simp only [ffdAll] at h
      cases htp : tryPlace s files sizes with
      | none => rw [htp] at h; exact absurd h (by simp)
      | some p =>
          obtain ⟨fs2, szs2⟩ := p
          rw [htp] at h
          exact (ffdAll_length h).trans (tryPlace_length htp).1

theorem groupOk_replicate (baseSize : Int) :
    ∀ n : Nat, List.Forall₂ (GroupOk baseSize)
      (List.replicate n ([] : List Statement)) (List.replicate n baseSize)
  | 0 => List.Forall₂.nil
  | n + 1 => List.Forall₂.cons ⟨by simp, by simp⟩ (groupOk_replicate baseSize n)

theorem forall₂_mem_left {α β : Type} {R : α → β → Prop} :
    ∀ {l₁ : List α} {l₂ : List β}, List.Forall₂ R l₁ l₂ → ∀ a ∈ l₁, ∃ b, R a b := by
  intro l₁ l₂ h
  induction h with
  | nil => simp
  | cons hab _ ih =>
      intro a ha
      rcases List.mem_cons.mp ha with rfl | ha
      · exact ⟨_, hab⟩
      · exact ih a ha

theorem flatten_filter_pos :
    ∀ l : List (List Statement), (l.filter (fun f => f.length > 0)).flatten = l.flatten
  | [] => rfl
  | f :: fs => by
      by_cases hf : f.length > 0
      · simp [List.filter_cons, hf, flatten_filter_pos fs]
      · have : f = [] := by
          cases f with
          | nil => rfl
          | cons a as => simp at hf
        subst this
        simp [List.filter_cons, flatten_filter_pos fs]

theorem flatten_replicate_nil :
    ∀ n : Nat, (List.replicate n ([] : List Statement)).flatten = [] := by
  intro n
  induction n with
  | zero => rfl
  | succ n ih => simp [List.replicate_succ, ih]

theorem filter_pos_replicate_nil (n : Nat) :
    (List.replicate n ([] : List Statement)).filter (fun f => f.length > 0) = [] := by
  induction n with
  | zero => rfl
  | succ n ih => simp [List.replicate_succ, List.filter_cons, ih]

/-- A successful pack decomposes into a successful placement loop whose final
group array the result filters. -/
theorem packPolicies_some_elim {userInput : UserInput} {statements : List Statement}
    {baseSize : Int} {groups : List (List Statement)}
    (h : packPolicies userInput statements baseSize = some groups) :
    ∃ files2 sizes2,
      ffdAll (sortBySizeDesc statements) (List.replicate userInput.maxFiles [])
          (List.replicate userInput.maxFiles baseSize) = some (files2, sizes2) ∧
        groups = files2.filter (fun f => f.length > 0) := by
  simp only [packPolicies] at h
  split at h
  · exact absurd h (by simp)
  · rename_i files2 sizes2 heq
    split at h
    · exact absurd h (by simp)
    · simp only [Option.some.injEq] at h
      exact ⟨files2, sizes2, heq, h.symm⟩

/-! ### The claims about the packing engine -/

/-- C4: packing the empty statement sequence yields none, the very value that
models the nil slice used as the infeasible signal.  In the Go code the
result variable never receives an append on empty input, so packPolicies
returns nil there, exactly as the placement-failure path does: the
empty-input outcome is not distinct from the infeasible signal, contrary to
the claim and to the repository's own test expectation. -/
theorem packPolicies_empty_eq_infeasible (userInput : UserInput) (baseSize : Int) :
    packPolicies userInput [] baseSize = none := by
  simp only [packPolicies, sortBySizeDesc, ffdAll]
  rw [filter_pos_replicate_nil]
  rfl

/-- C5: on any successful pack, the statements across the returned groups are
a permutation (equal multiset) of the statements given to packPolicies. -/
theorem packPolicies_complete (userInput : UserInput) (statements : List Statement)
    (baseSize : Int) (groups : List (List Statement))
    (h : packPolicies userInput statements baseSize = some groups) :
    groups.flatten.Perm statements := by
  obtain ⟨files2, sizes2, hffd, rfl⟩ := packPolicies_some_elim h
  have h1 : (files2.filter (fun f => f.length > 0)).flatten = files2.flatten :=
    flatten_filter_pos files2
  have h2 : files2.flatten.Perm
      ((List.replicate userInput.maxFiles ([] : List Statement)).flatten ++
        sortBySizeDesc statements) := ffdAll_flatten hffd
  rw [flatten_replicate_nil, List.nil_append] at h2
  rw [h1]
  exact h2.trans (sortBySizeDesc_perm statements)

/-- C5 witness: the sample pack succeeds and preserves the statement multiset. -/
theorem packPolicies_complete_witness :
    ([[⟨[("Sid", JsonValue.str "B")], 3000⟩, ⟨[("Sid", JsonValue.str "C")], 2000⟩],
      [⟨[("Sid", JsonValue.str "A")], 3000⟩]] : List (List Statement)).flatten.Perm
      [⟨[("Sid", JsonValue.str "A")], 3000⟩, ⟨[("Sid", JsonValue.str "B")], 3000⟩,
        ⟨[("Sid", JsonValue.str "C")], 2000⟩] :=
  packPolicies_complete ⟨"policies", false, false, false, 5⟩
    [⟨[("Sid", JsonValue.str "A")], 3000⟩, ⟨[("Sid", JsonValue.str "B")], 3000⟩,
      ⟨[("Sid", JsonValue.str "C")], 2000⟩] SCPBaseSizeMinified
    [[⟨[("Sid", JsonValue.str "B")], 3000⟩, ⟨[("Sid", JsonValue.str "C")], 2000⟩],
      [⟨[("Sid", JsonValue.str "A")], 3000⟩]]
    (by decide)

/-- C6: every group of a successful pack respects the capacity invariant:
base overhead plus the statement sizes plus one separator per statement after
the first is at most MaxPolicySize. -/
theorem packPolicies_capacity (userInput : UserInput) (statements : List Statement)
    (baseSize : Int) (groups : List (List Statement))
    (h : packPolicies userInput statements baseSize = some groups) :
    ∀ g ∈ groups,
      baseSize + (g.map (fun st => st.size)).sum +
        (if 1 < g.length then (g.length : Int) - 1 else 0) ≤ MaxPolicySize := by
  obtain ⟨files2, sizes2, hffd, rfl⟩ := packPolicies_some_elim h
  intro g hg
  rw [List.mem_filter] at hg
  obtain ⟨hgmem, hgpos⟩ := hg
  have hgne : g ≠ [] := by
    intro hnil
    subst hnil
    simp at hgpos
  have hinv : List.Forall₂ (GroupOk baseSize) files2 sizes2 :=
    ffdAll_groupOk hffd (groupOk_replicate baseSize userInput.maxFiles)
  obtain ⟨sz, hval, hbound⟩ := forall₂_mem_left hinv g hgmem
  have hle := hbound hgne
  rw [hval] at hle
  split_ifs at hle ⊢ <;> omega

/-- C6 witness: the capacity bound at the fuller group of the sample pack. -/
theorem packPolicies_capacity_witness :
    SCPBaseSizeMinified +
      (([⟨[("Sid", JsonValue.str "B")], 3000⟩, ⟨[("Sid", JsonValue.str "C")], 2000⟩] :
          List Statement).map (fun st => st.size)).sum +
      (if 1 < ([⟨[("Sid", JsonValue.str "B")], 3000⟩,
          ⟨[("Sid", JsonValue.str "C")], 2000⟩] : List Statement).length then
        (([⟨[("Sid", JsonValue.str "B")], 3000⟩,
            ⟨[("Sid", JsonValue.str "C")], 2000⟩] : List Statement).length : Int) - 1
      else 0) ≤ MaxPolicySize :=
  packPolicies_capacity ⟨"policies", false, false, false, 5⟩
    [⟨[("Sid", JsonValue.str "A")], 3000⟩, ⟨[("Sid", JsonValue.str "B")], 3000⟩,
      ⟨[("Sid", JsonValue.str "C")], 2000⟩] SCPBaseSizeMinified
    [[⟨[("Sid", JsonValue.str "B")], 3000⟩, ⟨[("Sid", JsonValue.str "C")], 2000⟩],
      [⟨[("Sid", JsonValue.str "A")], 3000⟩]]
    (by decide)
    [⟨[("Sid", JsonValue.str "B")], 3000⟩, ⟨[("Sid", JsonValue.str "C")], 2000⟩]
    (by decide)

/-- C7: a successful pack returns at most maxFiles groups, every returned
group is non-empty, and the returned groups form a sublist of the final group
array of the placement loop, hence appear in the order of their original
group indices. -/
theorem packPolicies_groups_shape (userInput : UserInput) (statements : List Statement)
    (baseSize : Int) (groups : List (List Statement))
    (h : packPolicies userInput statements baseSize = some groups) :
    groups.length ≤ userInput.maxFiles ∧ (∀ g ∈ groups, g ≠ []) ∧
      ∃ files2 sizes2,
        ffdAll (sortBySizeDesc statements) (List.replicate userInput.maxFiles [])
            (List.replicate userInput.maxFiles baseSize) = some (files2, sizes2) ∧
          files2.length = userInput.maxFiles ∧ groups.Sublist files2 := by
  obtain ⟨files2, sizes2, hffd, rfl⟩ := packPolicies_some_elim h
  have hlen : files2.length = userInput.maxFiles := by
    have := ffdAll_length hffd
    simpa using this
  have hsub : (files2.filter (fun f => f.length > 0)).Sublist files2 :=
    List.filter_sublist files2
  refine ⟨?_, ?_, files2, sizes2, hffd, hlen, hsub⟩
  · calc (files2.filter (fun f => f.length > 0)).length ≤ files2.length :=
        hsub.length_le
      _ = userInput.maxFiles := hlen
  · intro g hg
    rw [List.mem_filter] at hg
    intro hnil
    subst hnil
    simp at hg

/-- C7 witness: the sample pack returns at most maxFiles groups. -/
theorem packPolicies_groups_shape_witness :
    ([[⟨[("Sid", JsonValue.str "B")], 3000⟩, ⟨[("Sid", JsonValue.str "C")], 2000⟩],
      [⟨[("Sid", JsonValue.str "A")], 3000⟩]] : List (List Statement)).length ≤
      (⟨"policies", false, false, false, 5⟩ : UserInput).maxFiles :=
  (packPolicies_groups_shape ⟨"policies", false, false, false, 5⟩
    [⟨[("Sid", JsonValue.str "A")], 3000⟩, ⟨[("Sid", JsonValue.str "B")], 3000⟩,
      ⟨[("Sid", JsonValue.str "C")], 2000⟩] SCPBaseSizeMinified
    [[⟨[("Sid", JsonValue.str "B")], 3000⟩, ⟨[("Sid", JsonValue.str "C")], 2000⟩],
      [⟨[("Sid", JsonValue.str "A")], 3000⟩]]
    (by decide)).1

theorem tryPlace_replicate_none {stmt : Statement} {baseSize : Int}
    (hbig : MaxPolicySize < baseSize + stmt.size) :
    ∀ n : Nat, tryPlace stmt (List.replicate n []) (List.replicate n baseSize) = none := by
  intro n
  induction n with
  | zero => rfl
  | succ n ih =>
      simp only [List.replicate_succ, tryPlace, List.length_nil, gt_iff_lt,
        lt_self_iff_false, if_false]
      rw [if_neg (by omega)]
      rw [ih]

/-- C8: a statement whose size exceeds MaxPolicySize minus the base overhead
always drives packPolicies to the infeasible signal, whatever the other
statements and whatever maxFiles is.  The sorted placement order begins with
a statement at least that large, which no group can accept. -/
theorem packPolicies_oversized_none (userInput : UserInput)
    (statements : List Statement) (baseSize : Int) (s : Statement)
    (hmem : s ∈ statements) (hbig : MaxPolicySize - baseSize < s.size) :
    packPolicies userInput statements baseSize = none := by
  have hmem2 : s ∈ sortBySizeDesc statements :=
    (sortBySizeDesc_perm statements).mem_iff.mpr hmem
  have hpair := sortBySizeDesc_pairwise statements
  cases hsort : sortBySizeDesc statements with
  | nil => rw [hsort] at hmem2; exact absurd hmem2 (by simp)
  | cons hd tl =>
      rw [hsort] at hmem2 hpair
      have hhd : s.size ≤ hd.size := by
        rcases List.mem_cons.mp hmem2 with rfl | hmem3
        · omega
        · exact (List.pairwise_cons.mp hpair).1 s hmem3
      simp only [packPolicies, hsort, ffdAll]
      rw [tryPlace_replicate_none (by omega)]

/-- C8 witness: one oversized statement forces the infeasible signal even
with a small companion and five groups available. -/
theorem packPolicies_oversized_none_witness :
    packPolicies ⟨"policies", false, false, false, 5⟩
      [⟨[("Sid", JsonValue.str "big")], 6000⟩, ⟨[("Sid", JsonValue.str "C")], 2000⟩]
      SCPBaseSizeMinified = none :=
  packPolicies_oversized_none ⟨"policies", false, false, false, 5⟩
    [⟨[("Sid", JsonValue.str "big")], 6000⟩, ⟨[("Sid", JsonValue.str "C")], 2000⟩]
    SCPBaseSizeMinified ⟨[("Sid", JsonValue.str "big")], 6000⟩ (by decide) (by decide)

/-! ### JSON serialization

Modelled from the spec: Go encoding/json is an external collaborator (it is
not part of this repository), so its documented behaviour and the output
format fixed in the specification are embedded here.  A Fields list stands
for a Go map in canonical form: keys unique and ascending, which is exactly
the key order encoding/json emits. -/

/-- Lowercase hexadecimal digit character. -/
def hexChar (n : Nat) : Char := if n < 10 then Char.ofNat (48 + n) else Char.ofNat (87 + n)

/-- Modelled from the spec: the escaping encoding/json applies to one
character inside a JSON string: quote, backslash, newline, carriage return
and tab get two-character escapes; the HTML-sensitive characters, the
remaining control characters and the line separators U+2028 and U+2029 get
six-character hexadecimal escapes; every other character is emitted raw. -/
def goEscape (c : Char) : List Char :=
  if c = '"' then ['\\', '"']
  else if c = '\\' then ['\\', '\\']
  else if c = '\n' then ['\\', 'n']
  else if c = '\r' then ['\\', 'r']
  else if c = '\t' then ['\\', 't']
  else if c = '<' ∨ c = '>' ∨ c = '&' ∨ c.toNat < 32 ∨ c = '\u2028' ∨ c = '\u2029' then
    ['\\', 'u', hexChar (c.toNat / 4096 % 16), hexChar (c.toNat / 256 % 16),
      hexChar (c.toNat / 16 % 16), hexChar (c.toNat % 16)]
  else [c]

/-- A JSON string literal: quote, escaped characters, closing quote. -/
def quoteStr (s : String) : List Char := '"' :: (s.data.flatMap goEscape ++ ['"'])

/-- Decimal digits of a natural number, most significant first. -/
def natChars (n : Nat) : List Char :=
  if n < 10 then [Char.ofNat (48 + n)]
  else natChars (n / 10) ++ [Char.ofNat (48 + n % 10)]
termination_by n
decreasing_by exact Nat.div_lt_self (by omega) (by omega)

/-- An integer as encoding/json emits it: optional minus sign and digits. -/
def intChars (n : Int) : List Char :=
  if n < 0 then '-' :: natChars n.natAbs else natChars n.natAbs

/-- Newline plus two-space indentation at the given depth, the separator
MarshalIndent with empty prefix and two-space indent inserts. -/
def nlIndent (d : Nat) : List Char := '\n' :: List.replicate (2 * d) ' '

mutual

/-- Modelled from the spec: serialization of one JSON value as encoding/json
performs it; ws selects MarshalIndent output, d is the nesting depth. -/
def jser (ws : Bool) (d : Nat) : JsonValue → List Char
  | .null => ['n', 'u', 'l', 'l']
  | .bool b => if b then ['t', 'r', 'u', 'e'] else ['f', 'a', 'l', 's', 'e']
  | .num n => intChars n
  | .str s => quoteStr s
  | .arr [] => ['[', ']']
  | .arr (e :: es) =>
      '[' :: ((if ws then nlIndent (d + 1) else []) ++
        (jserElems ws (d + 1) e es ++ ((if ws then nlIndent d else []) ++ [']'])))
  | .obj [] => ['\x7b', '\x7d']
  | .obj (p :: ps) =>
      '\x7b' :: ((if ws then nlIndent (d + 1) else []) ++
        (jserFields ws (d + 1) p ps ++ ((if ws then nlIndent d else []) ++ ['\x7d'])))
termination_by v => sizeOf v
decreasing_by all_goals (simp; try omega)

/-- Serialization of a non-empty array body, commas between elements. -/
def jserElems (ws : Bool) (d : Nat) : JsonValue → List JsonValue → List Char
  | e, [] => jser ws d e
  | e, e2 :: es =>
      jser ws d e ++ ',' :: ((if ws then nlIndent d else []) ++ jserElems ws d e2 es)
termination_by e es => sizeOf e + sizeOf es
decreasing_by all_goals (simp; try omega)

/-- Serialization of a non-empty field-list body, commas between fields. -/
def jserFields (ws : Bool) (d : Nat) : (String × JsonValue) → Fields → List Char
  | (k, v), [] => quoteStr k ++ ':' :: ((if ws then [' '] else []) ++ jser ws d v)
  | (k, v), p :: ps =>
      (quoteStr k ++ ':' :: ((if ws then [' '] else []) ++ jser ws d v)) ++
        ',' :: ((if ws then nlIndent d else []) ++ jserFields ws d p ps)
termination_by p ps => sizeOf p + sizeOf ps
decreasing_by all_goals (simp; try omega)

end

/-- Keys strictly ascending: the canonical-form condition on a field list. -/
def keysOrdered : Fields → Bool
  | [] => true
  | [_] => true
  | p :: q :: fs => decide (p.1 < q.1) && keysOrdered (q :: fs)

mutual

/-- Canonical values: every object field list has strictly ascending keys,
the canonical representation of a Go map. -/
def canonV : JsonValue → Bool
  | .null => true
  | .bool _ => true
  | .num _ => true
  | .str _ => true
  | .arr es => canonElems es
  | .obj fs => keysOrdered fs && canonFields fs

/-- Canonical condition on array elements. -/
def canonElems : List JsonValue → Bool
  | [] => true
  | e :: es => canonV e && canonElems es

/-- Canonical condition on the values of a field list. -/
def canonFields : Fields → Bool
  | [] => true
  | (_, v) :: fs => canonV v && canonFields fs

end

/-! ### JSON reading

Modelled from the spec: a JSON reader standing for encoding/json Unmarshal
at the value level.  The main reader is structural on explicit fuel; the
document reader supplies fuel exceeding the input length, which bounds any
parse since every recursion level consumes at least one character. -/

/-- Whitespace the JSON grammar ignores between tokens. -/
def isWsChar (c : Char) : Bool := c == ' ' || c == '\t' || c == '\n' || c == '\r'

/-- Drop leading JSON whitespace. -/
def trimWs : List Char → List Char
  | c :: cs => if isWsChar c then trimWs cs else c :: cs
  | [] => []

/-- Decode a two-character string escape. -/
def escDecode (c : Char) : Option Char :=
  if c = '"' ∨ c = '\\' ∨ c = '/' then some c
  else if c = 'n' then some '\n'
  else if c = 'r' then some '\r'
  else if c = 't' then some '\t'
  else if c = 'b' then some (Char.ofNat 8)
  else if c = 'f' then some (Char.ofNat 12)
  else none

/-- Value of one hexadecimal digit character. -/
def hexNib (c : Char) : Option Nat :=
  if '0' ≤ c ∧ c ≤ '9' then some (c.toNat - 48)
  else if 'a' ≤ c ∧ c ≤ 'f' then some (c.toNat - 87)
  else if 'A' ≤ c ∧ c ≤ 'F' then some (c.toNat - 55)
  else none

/-- Read the body of a JSON string literal after the opening quote, undoing
the escapes; the accumulator holds the decoded prefix reversed. -/
def readStr (acc : List Char) : List Char → Option (String × List Char)
  | [] => none
  | c :: rest =>
      if c = '"' then some (⟨acc.reverse⟩, rest)
      else if c = '\\' then
        match rest with
        | 'u' :: h1 :: h2 :: h3 :: h4 :: r2 =>
            match hexNib h1, hexNib h2, hexNib h3, hexNib h4 with
            | some a, some b, some x, some y =>
                readStr (Char.ofNat (((a * 16 + b) * 16 + x) * 16 + y) :: acc) r2
            | _, _, _, _ => none
        | e :: r2 =>
            match escDecode e with
            | some ch => readStr (ch :: acc) r2
            | none => none
        | [] => none
      else readStr (c :: acc) rest

/-- Read a run of decimal digits, folding them onto the accumulator. -/
def readDigits (acc : Nat) : List Char → Nat × List Char
  | c :: rest =>
      if c.isDigit then readDigits (acc * 10 + (c.toNat - 48)) rest else (acc, c :: rest)
  | [] => (acc, [])

mutual

/-- Read one JSON value, whitespace-insensitively. -/
def readVal : Nat → List Char → Option (JsonValue × List Char)
  | 0, _ => none
  | fuel + 1, cs =>
      match trimWs cs with
      | 'n' :: 'u' :: 'l' :: 'l' :: r => some (.null, r)
      | 't' :: 'r' :: 'u' :: 'e' :: r => some (.bool true, r)
      | 'f' :: 'a' :: 'l' :: 's' :: 'e' :: r => some (.bool false, r)
      | '"' :: r =>
          (match readStr [] r with
           | some (s, r1) => some (.str s, r1)
           | none => none)
      | '[' :: r =>
          (match trimWs r with
           | ']' :: r1 => some (.arr [], r1)
           | _ =>
              match readElems fuel r with
              | some (es, r1) => some (.arr es, r1)
              | none => none)
      | '\x7b' :: r =>
          (match trimWs r with
           | '\x7d' :: r1 => some (.obj [], r1)
           | _ =>
              match readFields fuel r with
              | some (fs, r1) => some (.obj fs, r1)
              | none => none)
      | '-' :: c :: r =>
          if c.isDigit then
            (fun p => some (JsonValue.num (-(p.1 : Int)), p.2))
              (readDigits (c.toNat - 48) r)
          else none
      | c :: r =>
          if c.isDigit then
            (fun p => some (JsonValue.num (p.1 : Int), p.2)) (readDigits (c.toNat - 48) r)
          else none
      | [] => none

/-- Read one or more comma-separated array elements up to the closer. -/
def readElems : Nat → List Char → Option (List JsonValue × List Char)
  | 0, _ => none
  | fuel + 1, cs =>
      match readVal fuel cs with
      | none => none
      | some (v, r) =>
          match trimWs r with
          | ',' :: r1 =>
              (match readElems fuel r1 with
               | some (vs, r2) => some (v :: vs, r2)
               | none => none)
          | ']' :: r1 => some ([v], r1)
          | _ => none

/-- Read one or more comma-separated object fields up to the closer. -/
def readFields : Nat → List Char → Option (Fields × List Char)
  | 0, _ => none
  | fuel + 1, cs =>
      match trimWs cs with
      | '"' :: r =>
          (match readStr [] r with
           | some (k, r1) =>
              (match trimWs r1 with
               | ':' :: r2 =>
                  (match readVal fuel r2 with
                   | some (v, r3) =>
                      (match trimWs r3 with
                       | ',' :: r4 =>
                          (match readFields fuel r4 with
                           | some (fs, r5) => some ((k, v) :: fs, r5)
                           | none => none)
                       | '\x7d' :: r4 => some ([(k, v)], r4)
                       | _ => none)
                   | none => none)
               | _ => none)
           | none => none)
      | _ => none

end

/-! ### Document assembly and re-parsing -/

/-- The Policy struct of outputs.go as a JSON value: the fixed version field
and the statement array, in struct declaration order (Version first, then
Statement), which is the field order encoding/json emits for a struct. -/
def docValue (contents : List Fields) : JsonValue :=
  .obj [("Version", .str SCPVersion), ("Statement", .arr (contents.map .obj))]

/-- writeJSON from outputs.go at the serialization level: the assembled
policy document carrying the fixed version field and the given statement
contents in order, minified or MarshalIndent-formatted with two-space
indentation. -/
def serializeDoc (ws : Bool) (contents : List Fields) : List Char :=
  jser ws 0 (docValue contents)

/-- writeJSON from outputs.go: serialize the statements of one output group
into a policy document, honouring the whitespace option. -/
def writeJSON (userInput : UserInput) (statements : List Statement) : List Char :=
  serializeDoc userInput.whitespace (statements.map (fun st => st.content))

/-- The per-statement step of extractIndividualPolicies in policies.go: keep
the content and record the length of its minified serialization as the
statement size. -/
def mkStatement (content : Fields) : Statement :=
  ⟨content, ((jser false 0 (.obj content)).length : Int)⟩

/-- The Policy struct of policies.go as Unmarshal fills it from an output
document: the version string and the statement maps. -/
structure GoPolicy where
  version : String
  statement : List Fields
deriving DecidableEq

/-- A JSON value as a Go map, when it is an object. -/
def fieldsOf : JsonValue → Option Fields
  | .obj fs => some fs
  | _ => none

/-- Every array entry as a Go map; fails when one entry is not an object. -/
def fieldsOfAll : List JsonValue → Option (List Fields)
  | [] => some []
  | v :: vs =>
      match fieldsOf v, fieldsOfAll vs with
      | some fs, some rest => some (fs :: rest)
      | _, _ => none

/-- Modelled from the spec: Unmarshal of a policy document into the Policy
struct: read the JSON text completely, require a top-level object carrying a
string Version and an array Statement whose entries are objects. -/
def parsePolicyDoc (cs : List Char) : Option GoPolicy :=
  match readVal (cs.length + 1) cs with
  | some (.obj fs, r) =>
      if (trimWs r).isEmpty then
        match fs.lookup "Version", fs.lookup "Statement" with
        | some (.str ver), some (.arr elems) =>
            match fieldsOfAll elems with
            | some contents => some ⟨ver, contents⟩
            | none => none
        | _, _ => none
      else none
  | _ => none

/-! ### Round-trip infrastructure: whitespace and string lemmas -/

theorem trimWs_cons_not_ws {c : Char} {l : List Char} (h : isWsChar c = false) :
    trimWs (c :: l) = c :: l := by
  simp [trimWs, h]

theorem trimWs_ws_prefixed {l : List Char} (hl : ∀ c ∈ l, isWsChar c = true)
    (x : List Char) : trimWs (l ++ x) = trimWs x := by
  induction l with
  | nil => rfl
  | cons c cs ih =>
      have hc := hl c (by simp)
      simp only [List.cons_append, trimWs, hc, if_true]
      exact ih (fun a ha => hl a (by simp [ha]))

theorem trimWs_nlIndent (d : Nat) (x : List Char) :
    trimWs (nlIndent d ++ x) = trimWs x := by
  refine trimWs_ws_prefixed ?_ x
  intro c hc
  simp only [nlIndent, List.mem_cons, List.mem_replicate] at hc
  rcases hc with rfl | ⟨_, rfl⟩ <;> rfl

theorem trimWs_sep (ws : Bool) (d : Nat) (x : List Char) :
    trimWs ((if ws then nlIndent d else []) ++ x) = trimWs x := by
  cases ws with
  | false => rfl
  | true => exact trimWs_nlIndent d x

theorem hexNib_hexChar {m : Nat} (h : m < 16) : hexNib (hexChar m) = some m := by
  interval_cases m <;> decide

theorem readStr_goEscape (c : Char) (acc rest : List Char) :
    readStr acc (goEscape c ++ rest) = readStr (c :: acc) rest := by
  by_cases h1 : c = '"'
  · subst h1; rfl
  · by_cases h2 : c = '\\'
    · subst h2; rfl
    · by_cases h3 : c = '\n'
      · subst h3; rfl
      · by_cases h4 : c = '\r'
        · subst h4; rfl
        · by_cases h5 : c = '\t'
          · subst h5; rfl
          · by_cases h6 : c = '<' ∨ c = '>' ∨ c = '&' ∨ c.toNat < 32 ∨
                c = ' ' ∨ c = ' '
            · have hesc : goEscape c =
                  ['\\', 'u', hexChar (c.toNat / 4096 % 16), hexChar (c.toNat / 256 % 16),
                    hexChar (c.toNat / 16 % 16), hexChar (c.toNat % 16)] := by
                simp only [goEscape, if_neg h1, if_neg h2, if_neg h3, if_neg h4,
                  if_neg h5, if_pos h6]
              rw [hesc]
              simp only [List.cons_append, List.nil_append]
              have hm : ∀ k : Nat, k % 16 < 16 := fun k => Nat.mod_lt _ (by omega)
              rw [readStr.eq_def]
              simp only [hexNib_hexChar (hm _)]
              have hbound : c.toNat < 65536 := by
                rcases h6 with rfl | rfl | rfl | hlt | rfl | rfl
                · decide
                · decide
                · decide
                · omega
                · decide
                · decide
              have harith :
                  ((c.toNat / 4096 % 16 * 16 + c.toNat / 256 % 16) * 16 +
                      c.toNat / 16 % 16) * 16 + c.toNat % 16 = c.toNat := by
                omega
              rw [harith, Char.ofNat_toNat]
              simp
            · have hesc : goEscape c = [c] := by
                simp only [goEscape, if_neg h1, if_neg h2, if_neg h3, if_neg h4,
                  if_neg h5, if_neg h6]
              rw [hesc]
              simp only [List.cons_append, List.nil_append]
              rw [readStr.eq_def]
              simp [h1, h2]

theorem readStr_escaped (l : List Char) :
    ∀ (acc rest : List Char),
      readStr acc (l.flatMap goEscape ++ '"' :: rest) =
        some (⟨acc.reverse ++ l⟩, rest) := by
  induction l with
  | nil =>
      intro acc rest
      simp only [List.flatMap_nil, List.nil_append]
      rw [readStr.eq_def]
      simp
  | cons c cs ih =>
      intro acc rest
      rw [List.flatMap_cons, List.append_assoc, readStr_goEscape, ih]
      simp

theorem readStr_quoted (s : String) (rest : List Char) :
    readStr [] (s.data.flatMap goEscape ++ '"' :: rest) = some (s, rest) := by
  rw [readStr_escaped]
  cases s
  rfl

/-! ### Round-trip infrastructure: numbers -/

/-- True when the input cannot extend a digit run: empty, or headed by a
character that is not a digit.  Every JSON delimiter qualifies. -/
def notDigitHead : List Char → Bool
  | [] => true
  | c :: _ => !c.isDigit

/-- Decimal value accumulated left to right over a digit run. -/
def foldDigits (acc : Nat) (ds : List Char) : Nat :=
  ds.foldl (fun a c => a * 10 + (c.toNat - 48)) acc

theorem digitChar_spec :
    ∀ k : Nat, k < 10 →
      (Char.ofNat (48 + k)).isDigit = true ∧ (Char.ofNat (48 + k)).toNat = 48 + k := by
  decide

theorem natChars_all_digits (n : Nat) : ∀ c ∈ natChars n, c.isDigit = true := by
  induction n using Nat.strong_induction_on with
  | _ n ih =>
      rw [natChars]
      by_cases h : n < 10
      · simp only [if_pos h]
        intro c hc
        rw [List.mem_singleton] at hc
        subst hc
        exact (digitChar_spec n h).1
      · simp only [if_neg h]
        intro c hc
        rcases List.mem_append.mp hc with hc | hc
        · exact ih (n / 10) (Nat.div_lt_self (by omega) (by omega)) c hc
        · rw [List.mem_singleton] at hc
          subst hc
          exact (digitChar_spec (n % 10) (Nat.mod_lt _ (by omega))).1

theorem natChars_ne_nil (n : Nat) : natChars n ≠ [] := by
  rw [natChars]
  by_cases h : n < 10
  · simp [h]
  · simp only [if_neg h]
    simp

theorem readDigits_run :
    ∀ (ds : List Char), (∀ c ∈ ds, c.isDigit = true) →
      ∀ (acc : Nat) (rest : List Char), notDigitHead rest = true →
        readDigits acc (ds ++ rest) = (foldDigits acc ds, rest) := by
  intro ds
  induction ds with
  | nil =>
      intro _ acc rest hrest
      cases rest with
      | nil => rfl
      | cons c t =>
          simp only [notDigitHead, Bool.not_eq_true'] at hrest
          simp [readDigits, hrest, foldDigits]
  | cons c cs ih =>
      intro hall acc rest hrest
      have hc : c.isDigit = true := hall c (by simp)
      simp only [List.cons_append, readDigits, hc, if_true, List.append_eq]
      rw [ih (fun a ha => hall a (by simp [ha])) _ rest hrest]
      simp [foldDigits]

theorem foldDigits_natChars (n : Nat) :
    ∀ acc : Nat, foldDigits acc (natChars n) = acc * 10 ^ (natChars n).length + n := by
  induction n using Nat.strong_induction_on with
  | _ n ih =>
      intro acc
      rw [natChars]
      by_cases h : n < 10
      · simp only [if_pos h]
        simp [foldDigits, (digitChar_spec n h).2]
      · simp only [if_neg h]
        rw [foldDigits, List.foldl_append]
        have hrec := ih (n / 10) (Nat.div_lt_self (by omega) (by omega)) acc
        rw [foldDigits] at hrec
        rw [hrec]
        have hd := (digitChar_spec (n % 10) (Nat.mod_lt _ (by omega))).2
        simp only [List.foldl_cons, List.foldl_nil, List.length_append,
          List.length_singleton, hd]
        rw [pow_succ]
        have : 48 + n % 10 - 48 = n % 10 := by omega
        rw [this]
        ring_nf
        omega

theorem isDigit_not_special {c : Char} (h : c.isDigit = true) :
    isWsChar c = false ∧ c ≠ 'n' ∧ c ≠ 't' ∧ c ≠ 'f' ∧ c ≠ '"' ∧ c ≠ '[' ∧
      c ≠ '\x7b' ∧ c ≠ '-' ∧ c ≠ ']' ∧ c ≠ '\x7d' ∧ c ≠ ',' ∧ c ≠ ':' := by
  refine ⟨?_, ?_, ?_, ?_, ?_, ?_, ?_, ?_, ?_, ?_, ?_, ?_⟩
  · simp only [isWsChar, Bool.or_eq_false_iff, beq_eq_false_iff_ne]
    refine ⟨⟨⟨?_, ?_⟩, ?_⟩, ?_⟩ <;> (intro he; rw [he] at h; exact absurd h (by decide))
  all_goals (intro he; rw [he] at h; exact absurd h (by decide))

/-- One-step unfolding of readVal at successor fuel (definitional). -/
theorem readVal_step (fuel : Nat) (cs : List Char) :
    readVal (fuel + 1) cs =
      (match trimWs cs with
       | 'n' :: 'u' :: 'l' :: 'l' :: r => some (JsonValue.null, r)
       | 't' :: 'r' :: 'u' :: 'e' :: r => some (JsonValue.bool true, r)
       | 'f' :: 'a' :: 'l' :: 's' :: 'e' :: r => some (JsonValue.bool false, r)
       | '"' :: r =>
           (match readStr [] r with
            | some (s, r1) => some (JsonValue.str s, r1)
            | none => none)
       | '[' :: r =>
           (match trimWs r with
            | ']' :: r1 => some (JsonValue.arr [], r1)
            | _ =>
               match readElems fuel r with
               | some (es, r1) => some (JsonValue.arr es, r1)
               | none => none)
       | '\x7b' :: r =>
           (match trimWs r with
            | '\x7d' :: r1 => some (JsonValue.obj [], r1)
            | _ =>
               match readFields fuel r with
               | some (fs, r1) => some (JsonValue.obj fs, r1)
               | none => none)
       | '-' :: c :: r =>
           if c.isDigit then
             (fun p => some (JsonValue.num (-(p.1 : Int)), p.2))
               (readDigits (c.toNat - 48) r)
           else none
       | c :: r =>
           if c.isDigit then
             (fun p => some (JsonValue.num (p.1 : Int), p.2)) (readDigits (c.toNat - 48) r)
           else none
       | [] => none) := rfl

/-- One-step unfolding of readElems at successor fuel (definitional). -/
theorem readElems_step (fuel : Nat) (cs : List Char) :
    readElems (fuel + 1) cs =
      (match readVal fuel cs with
       | none => none
       | some (v, r) =>
           match trimWs r with
           | ',' :: r1 =>
               (match readElems fuel r1 with
                | some (vs, r2) => some (v :: vs, r2)
                | none => none)
           | ']' :: r1 => some ([v], r1)
           | _ => none) := rfl

/-- One-step unfolding of readFields at successor fuel (definitional). -/
theorem readFields_step (fuel : Nat) (cs : List Char) :
    readFields (fuel + 1) cs =
      (match trimWs cs with
       | '"' :: r =>
           (match readStr [] r with
            | some (k, r1) =>
               (match trimWs r1 with
                | ':' :: r2 =>
                   (match readVal fuel r2 with
                    | some (v, r3) =>
                       (match trimWs r3 with
                        | ',' :: r4 =>
                           (match readFields fuel r4 with
                            | some (fs, r5) => some ((k, v) :: fs, r5)
                            | none => none)
                        | '\x7d' :: r4 => some ([(k, v)], r4)
                        | _ => none)
                    | none => none)
                | _ => none)
            | none => none)
       | _ => none) := rfl

theorem natChars_cons (m : Nat) :
    ∃ d ds, natChars m = d :: ds ∧ d.isDigit = true ∧ (∀ a ∈ ds, a.isDigit = true) := by
  cases hx : natChars m with
  | nil => exact absurd hx (natChars_ne_nil m)
  | cons d ds =>
      refine ⟨d, ds, rfl, ?_, ?_⟩
      · exact natChars_all_digits m d (by rw [hx]; simp)
      · intro a ha
        exact natChars_all_digits m a (by rw [hx]; simp [ha])

theorem foldDigits_head (m : Nat) {d : Char} {ds : List Char}
    (hnat : natChars m = d :: ds) : foldDigits (d.toNat - 48) ds = m := by
  have h0 : foldDigits 0 (natChars m) = m := by
    rw [foldDigits_natChars]
    simp
  rw [hnat] at h0
  simpa [foldDigits] using h0

theorem readVal_digit_entry (fuel : Nat) (c : Char) (r : List Char)
    (hc : c.isDigit = true) :
    readVal (fuel + 1) (c :: r) =
      (fun p => some (JsonValue.num (p.1 : Int), p.2)) (readDigits (c.toNat - 48) r) := by
  obtain ⟨hws, hn, ht, hf, hq, hlb, hob, hminus, _, _, _, _⟩ := isDigit_not_special hc
  rw [readVal_step]
  rw [trimWs_cons_not_ws hws]
  simp [hn, ht, hf, hq, hlb, hob, hminus, hc]

/-- Reading serialized integers: the number round-trip. -/
theorem readVal_intChars (n : Int) (fuel : Nat) (rest : List Char)
    (hrest : notDigitHead rest = true) :
    readVal (fuel + 1) (intChars n ++ rest) = some (.num n, rest) := by
  obtain ⟨d, ds, hnat, hd, hds⟩ := natChars_cons n.natAbs
  by_cases hneg : n < 0
  · simp only [intChars, if_pos hneg, hnat, List.cons_append]
    rw [readVal_step]
    rw [trimWs_cons_not_ws (by decide)]
    simp only [hd, if_true]
    rw [readDigits_run ds hds _ rest hrest]
    have hfold := foldDigits_head n.natAbs hnat
    have hval : -((n.natAbs : Nat) : Int) = n := by omega
    simp only [hfold, hval]
  · simp only [intChars, if_neg hneg, hnat, List.cons_append]
    rw [readVal_digit_entry fuel d _ hd]
    rw [readDigits_run ds hds _ rest hrest]
    have hfold := foldDigits_head n.natAbs hnat
    have hval : ((n.natAbs : Nat) : Int) = n := by omega
    simp only [hfold, hval]

/-! ### Round-trip infrastructure: head shapes of serialized output -/

theorem jser_head (ws : Bool) (d : Nat) (v : JsonValue) :
    ∃ c t, jser ws d v = c :: t ∧ isWsChar c = false ∧ c ≠ ']' ∧ c ≠ '\x7d' ∧
      c ≠ ',' ∧ c ≠ ':' := by
  cases v with
  | null =>
      exact ⟨'n', ['u', 'l', 'l'], by simp [jser], by decide, by decide, by decide,
        by decide, by decide⟩
  | bool b =>
      cases b with
      | true =>
          exact ⟨'t', ['r', 'u', 'e'], by simp [jser], by decide, by decide, by decide,
            by decide, by decide⟩
      | false =>
          exact ⟨'f', ['a', 'l', 's', 'e'], by simp [jser], by decide, by decide,
            by decide, by decide, by decide⟩
  | str s =>
      exact ⟨'"', s.data.flatMap goEscape ++ ['"'], by simp [jser, quoteStr], by decide,
        by decide, by decide, by decide, by decide⟩
  | num n =>
      by_cases hneg : n < 0
      · exact ⟨'-', natChars n.natAbs, by simp [jser, intChars, hneg], by decide,
          by decide, by decide, by decide, by decide⟩
      · obtain ⟨d0, ds, hnat, hd0, _⟩ := natChars_cons n.natAbs
        obtain ⟨hws2, _, _, _, _, _, _, _, hrb, hob, hcm, hcl⟩ := isDigit_not_special hd0
        exact ⟨d0, ds, by simp [jser, intChars, hneg, hnat], hws2, hrb, hob, hcm, hcl⟩
  | arr es =>
      cases es with
      | nil =>
          exact ⟨'[', [']'], by simp [jser], by decide, by decide, by decide, by decide,
            by decide⟩
      | cons e es =>
          exact ⟨'[', (if ws then nlIndent (d + 1) else []) ++
              (jserElems ws (d + 1) e es ++ ((if ws then nlIndent d else []) ++ [']'])),
            by simp [jser], by decide, by decide, by decide, by decide, by decide⟩
  | obj fs =>
      cases fs with
      | nil =>
          exact ⟨'\x7b', ['\x7d'], by simp [jser], by decide, by decide, by decide,
            by decide, by decide⟩
      | cons p ps =>
          exact ⟨'\x7b', (if ws then nlIndent (d + 1) else []) ++
              (jserFields ws (d + 1) p ps ++ ((if ws then nlIndent d else []) ++ ['\x7d'])),
            by simp [jser], by decide, by decide, by decide, by decide, by decide⟩

theorem trimWs_jser (ws : Bool) (d : Nat) (v : JsonValue) (x : List Char) :
    trimWs (jser ws d v ++ x) = jser ws d v ++ x := by
  obtain ⟨c, t, hv, hws2, _, _, _, _⟩ := jser_head ws d v
  rw [hv, List.cons_append, trimWs_cons_not_ws hws2]

theorem jserElems_decomp (ws : Bool) (d : Nat) (e : JsonValue) (es : List JsonValue) :
    ∃ tail, jserElems ws d e es = jser ws d e ++ tail := by
  cases es with
  | nil => exact ⟨[], by simp [jserElems]⟩
  | cons e2 es =>
      exact ⟨',' :: ((if ws then nlIndent d else []) ++ jserElems ws d e2 es),
        by simp [jserElems]⟩

theorem trimWs_jserElems (ws : Bool) (d : Nat) (e : JsonValue) (es : List JsonValue)
    (x : List Char) :
    trimWs (jserElems ws d e es ++ x) = jserElems ws d e es ++ x := by
  obtain ⟨tail, htail⟩ := jserElems_decomp ws d e es
  rw [htail, List.append_assoc, trimWs_jser]

theorem jserFields_decomp (ws : Bool) (d : Nat) (p : String × JsonValue) (ps : Fields) :
    ∃ tail, jserFields ws d p ps = '"' :: tail := by
  obtain ⟨k, v⟩ := p
  cases ps with
  | nil =>
      exact ⟨k.data.flatMap goEscape ++ '"' :: ':' ::
          ((if ws then [' '] else []) ++ jser ws d v),
        by simp [jserFields, quoteStr]⟩
  | cons q qs =>
      exact ⟨k.data.flatMap goEscape ++ '"' :: ':' ::
          ((if ws then [' '] else []) ++
            (jser ws d v ++ ',' :: ((if ws then nlIndent d else []) ++ jserFields ws d q qs))),
        by simp [jserFields, quoteStr]⟩

theorem notDigitHead_sep_close (ws : Bool) (d : Nat) {c : Char} (hc : c.isDigit = false)
    (x : List Char) :
    notDigitHead ((if ws then nlIndent d else []) ++ c :: x) = true := by
  cases ws with
  | false => simp [notDigitHead, hc]
  | true => simp [nlIndent, notDigitHead]

theorem sep_all_ws (ws : Bool) (d : Nat) :
    ∀ c ∈ (if ws then nlIndent d else []), isWsChar c = true := by
  cases ws with
  | false => simp
  | true =>
      intro c hc
      simp only [if_true, nlIndent, List.mem_cons, List.mem_replicate] at hc
      rcases hc with rfl | ⟨_, rfl⟩ <;> rfl

theorem spc_all_ws (ws : Bool) :
    ∀ c ∈ (if ws then [' '] else ([] : List Char)), isWsChar c = true := by
  cases ws with
  | false => simp
  | true =>
      intro c hc
      simp only [if_true, List.mem_singleton] at hc
      subst hc
      rfl

theorem trimWs_sep_cons (ws : Bool) (d : Nat) {c : Char} (hc : isWsChar c = false)
    (x : List Char) :
    trimWs ((if ws then nlIndent d else []) ++ c :: x) = c :: x := by
  rw [trimWs_ws_prefixed (sep_all_ws ws d), trimWs_cons_not_ws hc]

theorem jser_len_pos (ws : Bool) (d : Nat) (v : JsonValue) : 0 < (jser ws d v).length := by
  obtain ⟨c, t, hv, _, _, _, _, _⟩ := jser_head ws d v
  rw [hv]
  simp

/-- Reading ignores a leading run of whitespace. -/
theorem readVal_trim_prefixed (fuel : Nat) {w : List Char}
    (hw : ∀ c ∈ w, isWsChar c = true) (x : List Char) :
    readVal fuel (w ++ x) = readVal fuel x := by
  cases fuel with
  | zero => rfl
  | succ f => rw [readVal_step, readVal_step, trimWs_ws_prefixed hw]

theorem readElems_trim_prefixed (fuel : Nat) {w : List Char}
    (hw : ∀ c ∈ w, isWsChar c = true) (x : List Char) :
    readElems fuel (w ++ x) = readElems fuel x := by
  cases fuel with
  | zero => rfl
  | succ f => rw [readElems_step, readElems_step, readVal_trim_prefixed f hw]

theorem readFields_trim_prefixed (fuel : Nat) {w : List Char}
    (hw : ∀ c ∈ w, isWsChar c = true) (x : List Char) :
    readFields fuel (w ++ x) = readFields fuel x := by
  cases fuel with
  | zero => rfl
  | succ f => rw [readFields_step, readFields_step, trimWs_ws_prefixed hw]

/-- Entering the array branch of readVal (definitional once the opening
bracket is at the head). -/
theorem readVal_arr_entry (f : Nat) (r : List Char) :
    readVal (f + 1) ('[' :: r) =
      (match trimWs r with
       | ']' :: r1 => some (JsonValue.arr [], r1)
       | _ =>
          match readElems f r with
          | some (es, r1) => some (JsonValue.arr es, r1)
          | none => none) := by
  rw [readVal_step, trimWs_cons_not_ws (by decide)]
  rfl

/-- Entering the object branch of readVal. -/
theorem readVal_obj_entry (f : Nat) (r : List Char) :
    readVal (f + 1) ('\x7b' :: r) =
      (match trimWs r with
       | '\x7d' :: r1 => some (JsonValue.obj [], r1)
       | _ =>
          match readFields f r with
          | some (fs, r1) => some (JsonValue.obj fs, r1)
          | none => none) := by
  rw [readVal_step, trimWs_cons_not_ws (by decide)]
  rfl

/-! ### The codec round-trip over the whole value grammar -/

mutual

theorem roundtrip_val :
    ∀ (v : JsonValue) (ws : Bool) (d fuel : Nat) (rest : List Char),
      canonV v = true → (jser ws d v).length < fuel → notDigitHead rest = true →
      readVal fuel (jser ws d v ++ rest) = some (v, rest)
  | .null, ws, d, fuel, rest, _, hf, _ => by
      cases fuel with
      | zero => simp [jser] at hf
      | succ f =>
          rw [readVal_step]
          simp only [jser, List.cons_append]
          rw [trimWs_cons_not_ws (by decide)]
          simp
  | .bool true, ws, d, fuel, rest, _, hf, _ => by
      cases fuel with
      | zero => simp [jser] at hf
      | succ f =>
          rw [readVal_step]
          simp only [jser, if_true, reduceIte, List.cons_append]
          rw [trimWs_cons_not_ws (by decide)]
          simp
  | .bool false, ws, d, fuel, rest, _, hf, _ => by
      cases fuel with
      | zero => simp [jser] at hf
      | succ f =>
          rw [readVal_step]
          simp only [jser, Bool.false_eq_true, if_false, reduceIte, List.cons_append]
          rw [trimWs_cons_not_ws (by decide)]
          simp
  | .num n, ws, d, fuel, rest, _, hf, hrest => by
      cases fuel with
      | zero => exact absurd hf (Nat.not_lt_zero _)
      | succ f =>
          simp only [jser]
          exact readVal_intChars n f rest hrest
  | .str s, ws, d, fuel, rest, _, hf, _ => by
      cases fuel with
      | zero => exact absurd hf (Nat.not_lt_zero _)
      | succ f =>
          rw [readVal_step]
          simp only [jser, quoteStr, List.cons_append, List.append_assoc,
            List.singleton_append]
          rw [trimWs_cons_not_ws (by decide)]
          simp [readStr_quoted s rest]
  | .arr [], ws, d, fuel, rest, _, hf, _ => by
      cases fuel with
      | zero => simp [jser] at hf
      | succ f =>
          have hsh : jser ws d (.arr []) ++ rest = '[' :: (']' :: rest) := by
            simp [jser]
          rw [hsh, readVal_arr_entry]
          rw [trimWs_cons_not_ws (by decide)]
          rfl
  | .arr (e :: es), ws, d, fuel, rest, hc, hf, _ => by
      have hce : canonV e = true ∧ canonElems es = true := by
        have := hc
        simp only [canonV, canonElems, Bool.and_eq_true] at this
        exact this
      cases fuel with
      | zero => exact absurd hf (Nat.not_lt_zero _)
      | succ f =>
          have hflen : (jserElems ws (d + 1) e es).length + 1 < f := by
            simp only [jser, List.length_cons, List.length_append] at hf
            omega
          have hsh : jser ws d (.arr (e :: es)) ++ rest =
              '[' :: ((if ws = true then nlIndent (d + 1) else []) ++
                (jserElems ws (d + 1) e es ++
                  ((if ws = true then nlIndent d else []) ++ ']' :: rest))) := by
            simp [jser, List.append_assoc]
          rw [hsh, readVal_arr_entry]
          obtain ⟨c0, t0, he0, hws0, hrb0, _, _, _⟩ := jser_head ws (d + 1) e
          obtain ⟨tl, htl⟩ := jserElems_decomp ws (d + 1) e es
          have htrim :
              trimWs ((if ws = true then nlIndent (d + 1) else []) ++
                  (jserElems ws (d + 1) e es ++
                    ((if ws = true then nlIndent d else []) ++ ']' :: rest))) =
                c0 :: (t0 ++ (tl ++ ((if ws = true then nlIndent d else []) ++ ']' :: rest))) := by
            rw [trimWs_ws_prefixed (sep_all_ws ws (d + 1))]
            rw [htl, List.append_assoc, he0, List.cons_append]
            rw [trimWs_cons_not_ws hws0]
          rw [htrim]
          have hread :
              readElems f ((if ws = true then nlIndent (d + 1) else []) ++
                  (jserElems ws (d + 1) e es ++
                    ((if ws = true then nlIndent d else []) ++ ']' :: rest))) =
                some (e :: es, rest) := by
            rw [readElems_trim_prefixed f (sep_all_ws ws (d + 1))]
            exact roundtrip_elems e es ws d f rest hce.1 hce.2 hflen
          split
          · rename_i r1 heq
            rw [List.cons.injEq] at heq
            exact absurd heq.1 hrb0
          · simp only [hread]
  | .obj [], ws, d, fuel, rest, _, hf, _ => by
      cases fuel with
      | zero => simp [jser] at hf
      | succ f =>
          have hsh : jser ws d (.obj []) ++ rest = '\x7b' :: ('\x7d' :: rest) := by
            simp [jser]
          rw [hsh, readVal_obj_entry]
          rw [trimWs_cons_not_ws (by decide)]
          rfl
  | .obj (p :: ps), ws, d, fuel, rest, hc, hf, _ => by
      have hcp : canonV p.2 = true ∧ canonFields ps = true := by
        obtain ⟨k, v⟩ := p
        simp only [canonV, canonFields, Bool.and_eq_true] at hc
        exact ⟨hc.2.1, hc.2.2⟩
      cases fuel with
      | zero => exact absurd hf (Nat.not_lt_zero _)
      | succ f =>
          have hflen : (jserFields ws (d + 1) p ps).length + 1 < f := by
            simp only [jser, List.length_cons, List.length_append] at hf
            omega
          have hsh : jser ws d (.obj (p :: ps)) ++ rest =
              '\x7b' :: ((if ws = true then nlIndent (d + 1) else []) ++
                (jserFields ws (d + 1) p ps ++
                  ((if ws = true then nlIndent d else []) ++ '\x7d' :: rest))) := by
            simp [jser, List.append_assoc]
          rw [hsh, readVal_obj_entry]
          obtain ⟨tl, htl⟩ := jserFields_decomp ws (d + 1) p ps
          have htrim :
              trimWs ((if ws = true then nlIndent (d + 1) else []) ++
                  (jserFields ws (d + 1) p ps ++
                    ((if ws = true then nlIndent d else []) ++ '\x7d' :: rest))) =
                '"' :: (tl ++ ((if ws = true then nlIndent d else []) ++ '\x7d' :: rest)) := by
            rw [trimWs_ws_prefixed (sep_all_ws ws (d + 1))]
            rw [htl, List.cons_append]
            rw [trimWs_cons_not_ws (by decide)]
          rw [htrim]
          have hread :
              readFields f ((if ws = true then nlIndent (d + 1) else []) ++
                  (jserFields ws (d + 1) p ps ++
                    ((if ws = true then nlIndent d else []) ++ '\x7d' :: rest))) =
                some (p :: ps, rest) := by
            rw [readFields_trim_prefixed f (sep_all_ws ws (d + 1))]
            exact roundtrip_fields p ps ws d f rest hcp.1 hcp.2 hflen
          split
          · rename_i r1 heq
            rw [List.cons.injEq] at heq
            exact absurd heq.1 (by decide)
          · simp only [hread]
termination_by v => sizeOf v

theorem roundtrip_elems :
    ∀ (e : JsonValue) (es : List JsonValue) (ws : Bool) (d fuel : Nat) (rest : List Char),
      canonV e = true → canonElems es = true →
      (jserElems ws (d + 1) e es).length + 1 < fuel →
      readElems fuel
          (jserElems ws (d + 1) e es ++
            ((if ws = true then nlIndent d else []) ++ ']' :: rest)) =
        some (e :: es, rest)
  | e, [], ws, d, fuel, rest, hce, _, hf => by
      cases fuel with
      | zero => exact absurd hf (Nat.not_lt_zero _)
      | succ f =>
          have hfe : (jser ws (d + 1) e).length < f := by
            simp only [jserElems] at hf
            omega
          have hv : readVal f (jser ws (d + 1) e ++
                ((if ws = true then nlIndent d else []) ++ ']' :: rest)) =
              some (e, (if ws = true then nlIndent d else []) ++ ']' :: rest) :=
            roundtrip_val e ws (d + 1) f _ hce hfe
              (notDigitHead_sep_close ws d (by decide) rest)
          have ht : trimWs ((if ws = true then nlIndent d else []) ++ ']' :: rest) =
              ']' :: rest := trimWs_sep_cons ws d (by decide) rest
          rw [readElems_step]
          simp only [jserElems, hv, ht]
  | e, e2 :: es2, ws, d, fuel, rest, hce, hces, hf => by
      have hsplit : canonV e2 = true ∧ canonElems es2 = true := by
        simp only [canonElems, Bool.and_eq_true] at hces
        exact hces
      cases fuel with
      | zero => exact absurd hf (Nat.not_lt_zero _)
      | succ f =>
          have hlene := jser_len_pos ws (d + 1) e
          have hlen2 : (jserElems ws (d + 1) e (e2 :: es2)).length =
              (jser ws (d + 1) e).length + 1 +
                (if ws = true then nlIndent (d + 1) else []).length +
                (jserElems ws (d + 1) e2 es2).length := by
            simp [jserElems]
            omega
          have hfe : (jser ws (d + 1) e).length < f := by omega
          have hfe2 : (jserElems ws (d + 1) e2 es2).length + 1 < f := by omega
          have hshape :
              jserElems ws (d + 1) e (e2 :: es2) ++
                  ((if ws = true then nlIndent d else []) ++ ']' :: rest) =
                jser ws (d + 1) e ++
                  (',' :: ((if ws = true then nlIndent (d + 1) else []) ++
                    (jserElems ws (d + 1) e2 es2 ++
                      ((if ws = true then nlIndent d else []) ++ ']' :: rest)))) := by
            simp [jserElems, List.append_assoc]
          have hv : readVal f (jser ws (d + 1) e ++
                (',' :: ((if ws = true then nlIndent (d + 1) else []) ++
                  (jserElems ws (d + 1) e2 es2 ++
                    ((if ws = true then nlIndent d else []) ++ ']' :: rest))))) =
              some (e, ',' :: ((if ws = true then nlIndent (d + 1) else []) ++
                (jserElems ws (d + 1) e2 es2 ++
                  ((if ws = true then nlIndent d else []) ++ ']' :: rest)))) :=
            roundtrip_val e ws (d + 1) f _ hce hfe (by rfl)
          have ht : trimWs (',' :: ((if ws = true then nlIndent (d + 1) else []) ++
                (jserElems ws (d + 1) e2 es2 ++
                  ((if ws = true then nlIndent d else []) ++ ']' :: rest)))) =
              ',' :: ((if ws = true then nlIndent (d + 1) else []) ++
                (jserElems ws (d + 1) e2 es2 ++
                  ((if ws = true then nlIndent d else []) ++ ']' :: rest))) :=
            trimWs_cons_not_ws (by decide)
          have hrec : readElems f ((if ws = true then nlIndent (d + 1) else []) ++
                (jserElems ws (d + 1) e2 es2 ++
                  ((if ws = true then nlIndent d else []) ++ ']' :: rest))) =
              some (e2 :: es2, rest) := by
            rw [readElems_trim_prefixed f (sep_all_ws ws (d + 1))]
            exact roundtrip_elems e2 es2 ws d f rest hsplit.1 hsplit.2 hfe2
          rw [readElems_step, hshape]
          simp only [hv, ht, hrec]
termination_by e es => sizeOf e + sizeOf es

theorem roundtrip_fields :
    ∀ (p : String × JsonValue) (ps : Fields) (ws : Bool) (d fuel : Nat) (rest : List Char),
      canonV p.2 = true → canonFields ps = true →
      (jserFields ws (d + 1) p ps).length + 1 < fuel →
      readFields fuel
          (jserFields ws (d + 1) p ps ++
            ((if ws = true then nlIndent d else []) ++ '\x7d' :: rest)) =
        some (p :: ps, rest)
  | (k, v), [], ws, d, fuel, rest, hcv, _, hf => by
      cases fuel with
      | zero => exact absurd hf (Nat.not_lt_zero _)
      | succ f =>
          have hfv : (jser ws (d + 1) v).length < f := by
            simp only [jserFields, quoteStr, List.length_append, List.length_cons] at hf
            omega
          have hshape :
              jserFields ws (d + 1) (k, v) [] ++
                  ((if ws = true then nlIndent d else []) ++ '\x7d' :: rest) =
                '"' :: (k.data.flatMap goEscape ++ '"' ::
                  (':' :: ((if ws = true then [' '] else []) ++
                    (jser ws (d + 1) v ++
                      ((if ws = true then nlIndent d else []) ++ '\x7d' :: rest))))) := by
            simp [jserFields, quoteStr, List.append_assoc]
          have ht0 : trimWs ('"' :: (k.data.flatMap goEscape ++ '"' ::
                (':' :: ((if ws = true then [' '] else []) ++
                  (jser ws (d + 1) v ++
                    ((if ws = true then nlIndent d else []) ++ '\x7d' :: rest)))))) =
              '"' :: (k.data.flatMap goEscape ++ '"' ::
                (':' :: ((if ws = true then [' '] else []) ++
                  (jser ws (d + 1) v ++
                    ((if ws = true then nlIndent d else []) ++ '\x7d' :: rest))))) :=
            trimWs_cons_not_ws (by decide)
          have hk : readStr [] (k.data.flatMap goEscape ++ '"' ::
                (':' :: ((if ws = true then [' '] else []) ++
                  (jser ws (d + 1) v ++
                    ((if ws = true then nlIndent d else []) ++ '\x7d' :: rest))))) =
              some (k, ':' :: ((if ws = true then [' '] else []) ++
                (jser ws (d + 1) v ++
                  ((if ws = true then nlIndent d else []) ++ '\x7d' :: rest)))) :=
            readStr_quoted k _
          have ht1 : trimWs (':' :: ((if ws = true then [' '] else []) ++
                (jser ws (d + 1) v ++
                  ((if ws = true then nlIndent d else []) ++ '\x7d' :: rest)))) =
              ':' :: ((if ws = true then [' '] else []) ++
                (jser ws (d + 1) v ++
                  ((if ws = true then nlIndent d else []) ++ '\x7d' :: rest))) :=
            trimWs_cons_not_ws (by decide)
          have hv : readVal f ((if ws = true then [' '] else []) ++
                (jser ws (d + 1) v ++
                  ((if ws = true then nlIndent d else []) ++ '\x7d' :: rest))) =
              some (v, (if ws = true then nlIndent d else []) ++ '\x7d' :: rest) := by
            rw [readVal_trim_prefixed f (spc_all_ws ws)]
            exact roundtrip_val v ws (d + 1) f _ hcv hfv
              (notDigitHead_sep_close ws d (by decide) rest)
          have ht2 : trimWs ((if ws = true then nlIndent d else []) ++ '\x7d' :: rest) =
              '\x7d' :: rest := trimWs_sep_cons ws d (by decide) rest
          rw [readFields_step, hshape]
          simp only [ht0, hk, ht1, hv, ht2]
  | (k, v), q :: qs, ws, d, fuel, rest, hcv, hcqs, hf => by
      have hsplit : canonV q.2 = true ∧ canonFields qs = true := by
        obtain ⟨qk, qv⟩ := q
        simp only [canonFields, Bool.and_eq_true] at hcqs
        exact hcqs
      cases fuel with
      | zero => exact absurd hf (Nat.not_lt_zero _)
      | succ f =>
          have hfv : (jser ws (d + 1) v).length < f := by
            simp only [jserFields, quoteStr, List.length_append, List.length_cons] at hf
            omega
          have hfq : (jserFields ws (d + 1) q qs).length + 1 < f := by
            simp only [jserFields, quoteStr, List.length_append, List.length_cons] at hf
            omega
          have hshape :
              jserFields ws (d + 1) (k, v) (q :: qs) ++
                  ((if ws = true then nlIndent d else []) ++ '\x7d' :: rest) =
                '"' :: (k.data.flatMap goEscape ++ '"' ::
                  (':' :: ((if ws = true then [' '] else []) ++
                    (jser ws (d + 1) v ++
                      (',' :: ((if ws = true then nlIndent (d + 1) else []) ++
                        (jserFields ws (d + 1) q qs ++
                          ((if ws = true then nlIndent d else []) ++ '\x7d' :: rest)))))))) := by
            simp [jserFields, quoteStr, List.append_assoc]
          have ht0 : trimWs ('"' :: (k.data.flatMap goEscape ++ '"' ::
                (':' :: ((if ws = true then [' '] else []) ++
                  (jser ws (d + 1) v ++
                    (',' :: ((if ws = true then nlIndent (d + 1) else []) ++
                      (jserFields ws (d + 1) q qs ++
                        ((if ws = true then nlIndent d else []) ++ '\x7d' :: rest))))))))) =
              '"' :: (k.data.flatMap goEscape ++ '"' ::
                (':' :: ((if ws = true then [' '] else []) ++
                  (jser ws (d + 1) v ++
                    (',' :: ((if ws = true then nlIndent (d + 1) else []) ++
                      (jserFields ws (d + 1) q qs ++
                        ((if ws = true then nlIndent d else []) ++ '\x7d' :: rest)))))))) :=
            trimWs_cons_not_ws (by decide)
          have hk : readStr [] (k.data.flatMap goEscape ++ '"' ::
                (':' :: ((if ws = true then [' '] else []) ++
                  (jser ws (d + 1) v ++
                    (',' :: ((if ws = true then nlIndent (d + 1) else []) ++
                      (jserFields ws (d + 1) q qs ++
                        ((if ws = true then nlIndent d else []) ++ '\x7d' :: rest)))))))) =
              some (k, ':' :: ((if ws = true then [' '] else []) ++
                (jser ws (d + 1) v ++
                  (',' :: ((if ws = true then nlIndent (d + 1) else []) ++
                    (jserFields ws (d + 1) q qs ++
                      ((if ws = true then nlIndent d else []) ++ '\x7d' :: rest))))))) :=
            readStr_quoted k _
          have ht1 : trimWs (':' :: ((if ws = true then [' '] else []) ++
                (jser ws (d + 1) v ++
                  (',' :: ((if ws = true then nlIndent (d + 1) else []) ++
                    (jserFields ws (d + 1) q qs ++
                      ((if ws = true then nlIndent d else []) ++ '\x7d' :: rest))))))) =
              ':' :: ((if ws = true then [' '] else []) ++
                (jser ws (d + 1) v ++
                  (',' :: ((if ws = true then nlIndent (d + 1) else []) ++
                    (jserFields ws (d + 1) q qs ++
                      ((if ws = true then nlIndent d else []) ++ '\x7d' :: rest)))))) :=
            trimWs_cons_not_ws (by decide)
          have hv : readVal f ((if ws = true then [' '] else []) ++
                (jser ws (d + 1) v ++
                  (',' :: ((if ws = true then nlIndent (d + 1) else []) ++
                    (jserFields ws (d + 1) q qs ++
                      ((if ws = true then nlIndent d else []) ++ '\x7d' :: rest)))))) =
              some (v, ',' :: ((if ws = true then nlIndent (d + 1) else []) ++
                (jserFields ws (d + 1) q qs ++
                  ((if ws = true then nlIndent d else []) ++ '\x7d' :: rest)))) := by
            rw [readVal_trim_prefixed f (spc_all_ws ws)]
            exact roundtrip_val v ws (d + 1) f _ hcv hfv (by rfl)
          have ht2 : trimWs (',' :: ((if ws = true then nlIndent (d + 1) else []) ++
                (jserFields ws (d + 1) q qs ++
                  ((if ws = true then nlIndent d else []) ++ '\x7d' :: rest)))) =
              ',' :: ((if ws = true then nlIndent (d + 1) else []) ++
                (jserFields ws (d + 1) q qs ++
                  ((if ws = true then nlIndent d else []) ++ '\x7d' :: rest))) :=
            trimWs_cons_not_ws (by decide)
          have hrec : readFields f ((if ws = true then nlIndent (d + 1) else []) ++
                (jserFields ws (d + 1) q qs ++
                  ((if ws = true then nlIndent d else []) ++ '\x7d' :: rest))) =
              some (q :: qs, rest) := by
            rw [readFields_trim_prefixed f (sep_all_ws ws (d + 1))]
            exact roundtrip_fields q qs ws d f rest hsplit.1 hsplit.2 hfq
          rw [readFields_step, hshape]
          simp only [ht0, hk, ht1, hv, ht2, hrec]
termination_by p ps => sizeOf p + sizeOf ps

end

/-- The object round-trip again, but without any canonicity demand on the
top-level key order: the policy document object lists Version before
Statement, the struct declaration order, which is not the ascending key
order Go maps use.  Only the field values need to be canonical. -/
theorem roundtrip_obj_fields (p : String × JsonValue) (ps : Fields) (ws : Bool)
    (d fuel : Nat) (rest : List Char)
    (hcv : canonV p.2 = true) (hcf : canonFields ps = true)
    (hf : (jser ws d (.obj (p :: ps))).length < fuel) :
    readVal fuel (jser ws d (.obj (p :: ps)) ++ rest) = some (.obj (p :: ps), rest) := by
  cases fuel with
  | zero => exact absurd hf (Nat.not_lt_zero _)
  | succ f =>
      have hflen : (jserFields ws (d + 1) p ps).length + 1 < f := by
        simp only [jser, List.length_cons, List.length_append] at hf
        omega
      have hsh : jser ws d (.obj (p :: ps)) ++ rest =
          '\x7b' :: ((if ws = true then nlIndent (d + 1) else []) ++
            (jserFields ws (d + 1) p ps ++
              ((if ws = true then nlIndent d else []) ++ '\x7d' :: rest))) := by
        simp [jser, List.append_assoc]
      rw [hsh, readVal_obj_entry]
      obtain ⟨tl, htl⟩ := jserFields_decomp ws (d + 1) p ps
      have htrim :
          trimWs ((if ws = true then nlIndent (d + 1) else []) ++
              (jserFields ws (d + 1) p ps ++
                ((if ws = true then nlIndent d else []) ++ '\x7d' :: rest))) =
            '"' :: (tl ++ ((if ws = true then nlIndent d else []) ++ '\x7d' :: rest)) := by
        rw [trimWs_ws_prefixed (sep_all_ws ws (d + 1))]
        rw [htl, List.cons_append]
        rw [trimWs_cons_not_ws (by decide)]
      rw [htrim]
      have hread :
          readFields f ((if ws = true then nlIndent (d + 1) else []) ++
              (jserFields ws (d + 1) p ps ++
                ((if ws = true then nlIndent d else []) ++ '\x7d' :: rest))) =
            some (p :: ps, rest) := by
        rw [readFields_trim_prefixed f (sep_all_ws ws (d + 1))]
        exact roundtrip_fields p ps ws d f rest hcv hcf hflen
      split
      · rename_i r1 heq
        rw [List.cons.injEq] at heq
        exact absurd heq.1 (by decide)
      · simp only [hread]

theorem canonElems_of_forall :
    ∀ {l : List JsonValue}, (∀ v ∈ l, canonV v = true) → canonElems l = true
  | [], _ => rfl
  | v :: vs, h => by
      simp only [canonElems, Bool.and_eq_true]
      exact ⟨h v (by simp), canonElems_of_forall (fun x hx => h x (by simp [hx]))⟩


theorem fieldsOfAll_map_obj : ∀ l : List Fields, fieldsOfAll (l.map JsonValue.obj) = some l
  | [] => rfl
  | fs :: l => by
      simp [fieldsOfAll, fieldsOf, fieldsOfAll_map_obj l]

/-- Reading back a whole serialized policy document. -/
theorem readVal_doc (contents : List Fields) (ws : Bool) (fuel : Nat)
    (hc : ∀ fs ∈ contents, canonV (.obj fs) = true)
    (hf : (serializeDoc ws contents).length < fuel) :
    readVal fuel (serializeDoc ws contents) = some (docValue contents, []) := by
  have harr : canonElems (contents.map JsonValue.obj) = true := by
    apply canonElems_of_forall
    intro v hv
    obtain ⟨fs, hfs, rfl⟩ := List.mem_map.mp hv
    exact hc fs hfs
  have hcf : canonFields [("Statement", JsonValue.arr (contents.map JsonValue.obj))] = true := by
    simp [canonFields, canonV, harr]
  have h := roundtrip_obj_fields ("Version", JsonValue.str SCPVersion)
    [("Statement", JsonValue.arr (contents.map JsonValue.obj))] ws 0 fuel []
    rfl hcf (by simpa [serializeDoc, docValue] using hf)
  rw [List.append_nil] at h
  simpa [serializeDoc, docValue] using h

/-- C9: assembling an output document with writeJSON and re-parsing it the
way Unmarshal fills the Policy struct yields exactly the statement contents
that went in, in order and compared as structured JSON values, together
with the fixed version literal.  The hypothesis restricts statement
contents to canonical field lists, which is how this model represents Go
maps; it holds of every statement the extractor produces. -/
theorem writeJSON_parse_roundtrip (userInput : UserInput) (statements : List Statement)
    (hc : ∀ st ∈ statements, canonV (.obj st.content) = true) :
    parsePolicyDoc (writeJSON userInput statements) =
      some ⟨SCPVersion, statements.map (fun st => st.content)⟩ := by
  have hc2 : ∀ fs ∈ statements.map (fun st => st.content), canonV (.obj fs) = true := by
    intro fs hfs
    obtain ⟨st, hst, rfl⟩ := List.mem_map.mp hfs
    exact hc st hst
  have hread := readVal_doc (statements.map (fun st => st.content)) userInput.whitespace
    ((serializeDoc userInput.whitespace (statements.map (fun st => st.content))).length + 1)
    hc2 (by omega)
  show parsePolicyDoc
      (serializeDoc userInput.whitespace (statements.map (fun st => st.content))) = _
  simp only [parsePolicyDoc, hread, docValue, SCPVersion]
  have hlook1 : List.lookup "Version"
      [("Version", JsonValue.str "2012-10-17"),
        ("Statement", JsonValue.arr (List.map JsonValue.obj
          (List.map (fun st => st.content) statements)))] =
      some (JsonValue.str "2012-10-17") := rfl
  have hlook2 : List.lookup "Statement"
      [("Version", JsonValue.str "2012-10-17"),
        ("Statement", JsonValue.arr (List.map JsonValue.obj
          (List.map (fun st => st.content) statements)))] =
      some (JsonValue.arr (List.map JsonValue.obj
        (List.map (fun st => st.content) statements))) := rfl
  simp only [hlook1, hlook2, fieldsOfAll_map_obj, trimWs, List.isEmpty_nil, if_true]

/-- C9 witness: a concrete one-statement document in formatted mode parses
back to its own statement list and the fixed version. -/
theorem writeJSON_parse_roundtrip_witness :
    parsePolicyDoc (writeJSON ⟨"p.json", false, true, false, 5⟩
        [⟨[("Effect", JsonValue.str "Allow")], 18⟩]) =
      some ⟨SCPVersion, [[("Effect", JsonValue.str "Allow")]]⟩ :=
  writeJSON_parse_roundtrip ⟨"p.json", false, true, false, 5⟩
    [⟨[("Effect", JsonValue.str "Allow")], 18⟩] (by decide)

/-! ### The serialized-size claim -/

/-- A statement content whose minified serialization is exactly 5083
characters: one key "k" holding a 5075-character string. -/
def bigContent : Fields := [("k", JsonValue.str ⟨List.replicate 5075 'a'⟩)]

/-- The statement the extractor would build from bigContent. -/
def bigStatement : Statement := mkStatement bigContent

/-- A minified-output configuration with the default five files. -/
def uiMin : UserInput := ⟨"p.json", false, false, false, 5⟩


theorem goEscape_a : goEscape 'a' = ['a'] := by decide

theorem flatMap_goEscape_replicate_a :
    ∀ n : Nat, (List.replicate n 'a').flatMap goEscape = List.replicate n 'a' := by
  intro n
  induction n with
  | zero => rfl
  | succ n ih => simp [List.replicate_succ, goEscape_a, ih]

theorem strdata : (⟨List.replicate 5075 'a'⟩ : String).data = List.replicate 5075 'a' := rfl

theorem quoteStr_big_len : (quoteStr ⟨List.replicate 5075 'a'⟩).length = 5077 := by
  simp only [quoteStr, strdata, flatMap_goEscape_replicate_a, List.length_cons,
    List.length_append, List.length_replicate, List.length_singleton, List.length_nil]

theorem kq : (quoteStr "k").length = 3 := by decide
theorem qV : (quoteStr "Version").length = 9 := by decide
theorem qD : (quoteStr "2012-10-17").length = 12 := by decide
theorem qS : (quoteStr "Statement").length = 11 := by decide

theorem jser_str_eq (ws : Bool) (d : Nat) (s : String) :
    jser ws d (JsonValue.str s) = quoteStr s := by
  simp only [jser]

theorem jser_obj_one_len (d : Nat) (k : String) (v : JsonValue) :
    (jser false d (JsonValue.obj [(k, v)])).length
      = (quoteStr k).length + (jser false (d + 1) v).length + 3 := by
  simp only [jser, jserFields, Bool.false_eq_true, reduceIte, List.nil_append,
    List.length_cons, List.length_append, List.length_nil]
  omega

theorem doc_len_one (c : Fields) :
    (serializeDoc false [c]).length = (jser false (0 + 1 + 1) (JsonValue.obj c)).length + 39 := by
  simp only [serializeDoc, docValue, SCPVersion, List.map_cons, List.map_nil, jser,
    jserElems, jserFields, Bool.false_eq_true, reduceIte, List.nil_append,
    List.length_cons, List.length_append, List.length_nil, qV, qD, qS]
  omega

theorem bigContent_len (d : Nat) :
    (jser false d (JsonValue.obj bigContent)).length = 5083 := by
  show (jser false d (JsonValue.obj [("k", JsonValue.str ⟨List.replicate 5075 'a'⟩)])).length = 5083
  rw [jser_obj_one_len, jser_str_eq, quoteStr_big_len, kq]

theorem doc_big_len : (serializeDoc false [bigContent]).length = 5122 := by
  rw [doc_len_one, bigContent_len]

theorem bigStatement_size : bigStatement.size = 5083 := by
  simp only [bigStatement, mkStatement, bigContent_len, Nat.cast_ofNat]

theorem tryPlace_uiMin (s : Statement) (hfit : (37 : Int) + s.size + 0 ≤ 5120) :
    tryPlace s [[], [], [], [], []] [37, 37, 37, 37, 37]
      = some ([[s], [], [], [], []], (37 + s.size + 0) :: [37, 37, 37, 37]) := by
  simp only [tryPlace, List.length_nil, gt_iff_lt, lt_irrefl, if_false, if_pos hfit,
    List.nil_append, MaxPolicySize]

theorem packAll_uiMin_single (s : Statement) (hfit : (37 : Int) + s.size + 0 ≤ 5120) :
    packAllStatements uiMin [s] = some [[s]] := by
  have hrep : (List.replicate 5 ([] : List Statement)) = [[], [], [], [], []] := rfl
  have hrepsz : (List.replicate 5 (37 : Int)) = [37, 37, 37, 37, 37] := rfl
  simp only [packAllStatements, uiMin, Bool.false_eq_true, if_false, SCPBaseSizeMinified,
    packPolicies, sortBySizeDesc, insertBySize, hrep, hrepsz, ffdAll,
    tryPlace_uiMin s hfit, List.filter, List.length_nil, List.length_cons, decide_True,
    decide_False, List.isEmpty, gt_iff_lt, lt_irrefl, Nat.lt_irrefl,
    show decide (0 < 0 + 1) = true from rfl, Bool.false_eq_true, if_false]


/-- C2: the claimed invariant fails.  The packing engine accounts a group
by baseSize plus statement sizes, where baseSize = SCPBaseSizeMinified = 37
is the skeleton length minus the two brackets of the empty Statement array;
but the serialized document keeps those brackets, so its length is the
accounted size plus two.  A single statement of minified size 5083 is
accepted (37 + 5083 = 5120 = MaxPolicySize) yet the written document is
5122 characters, exceeding MaxPolicySize. -/
theorem writeJSON_exceeds_MaxPolicySize :
    packAllStatements uiMin [bigStatement] = some [[bigStatement]] ∧
    (writeJSON uiMin [bigStatement]).length = 5122 ∧
    MaxPolicySize < ((writeJSON uiMin [bigStatement]).length : Int) := by
  have hfit : (37 : Int) + bigStatement.size + 0 ≤ 5120 := by
    rw [bigStatement_size]; decide
  have hw : (writeJSON uiMin [bigStatement]).length = 5122 := by
    simp only [writeJSON, uiMin, bigStatement, mkStatement, List.map_cons, List.map_nil]
    exact doc_big_len
  exact ⟨packAll_uiMin_single bigStatement hfit, hw, by rw [hw]; decide⟩

/-! ### File-system effects of the output orchestrator (internal/core/outputs.go)

File IO is factored into an explicit action trace: each os.WriteFile and
os.Remove call becomes one action, in call order.  Path handling models the
Unix behaviour of path/filepath on the clean, slash-separated, ASCII paths
the theorems use. -/

/-- One file-system call performed by the orchestrator. -/
inductive FsAction where
  | write (path : String) (data : List Char)
  | remove (path : String)
deriving DecidableEq

/-- WriteResult from internal/core/core.go: the per-file summary. -/
structure WriteResult where
  filename : String
  size : Nat
  statements : Nat
deriving DecidableEq

/-- filepath.Base: the part of the path after the final slash. -/
def pathBase (s : String) : String :=
  ⟨(s.data.reverse.takeWhile (fun c => c ≠ '/')).reverse⟩

/-- filepath.Dir: the part of the path before the final slash, or the
current directory when the path holds no slash. -/
def pathDir (s : String) : String :=
  if s.data.contains '/' then
    ⟨((s.data.reverse.dropWhile (fun c => c ≠ '/')).drop 1).reverse⟩
  else "."

/-- filepath.Ext: the suffix of the final element from its last dot,
empty when the final element holds no dot. -/
def pathExt (s : String) : String :=
  let b := (pathBase s).data
  if b.contains '.' then ⟨'.' :: (b.reverse.takeWhile (fun c => c ≠ '.')).reverse⟩
  else ""

/-- filepath.Join on two non-empty elements; empty elements are dropped. -/
def pathJoin (d : String) (n : String) : String :=
  if d = "" then n else if n = "" then d else ⟨d.data ++ '/' :: n.data⟩

/-- generateOutputFilename from outputs.go: the destination of output file
number fileNum.  Sprintf %d is natChars; Go slices the original name by the
byte length of its extension, which on ASCII paths is the take below. -/
def generateOutputFilename (userInput : UserInput) (outputDir : String)
    (fileNum : Nat) (inputFiles : List String) : String :=
  if ¬userInput.isDirectory ∧ inputFiles.length = 1 then
    let originalFile := inputFiles.headD ""
    if fileNum = 1 then originalFile
    else
      let ext := pathExt originalFile
      ⟨(originalFile.data.take (originalFile.data.length - ext.data.length)) ++
        '-' :: (natChars fileNum ++ ext.data)⟩
  else if userInput.isDirectory then
    let baseName := pathBase userInput.target
    if fileNum = 1 then pathJoin outputDir ⟨baseName.data ++ ".json".data⟩
    else pathJoin outputDir ⟨baseName.data ++ '-' :: (natChars fileNum ++ ".json".data)⟩
  else
    pathJoin outputDir ⟨"corset".data ++ natChars fileNum ++ ".json".data⟩

/-- orchestrateOutputFiles from outputs.go: write one output file per packed
group, in order, collecting the per-file summaries and the write actions.
The index argument carries the position of the range loop. -/
def orchestrateOutputFiles (userInput : UserInput) (outputDir : String)
    (inputFiles : List String) :
    Nat → List (List Statement) → List WriteResult × List FsAction
  | _, [] => ([], [])
  | i, g :: gs =>
      let filename := generateOutputFilename userInput outputDir (i + 1) inputFiles
      let data := writeJSON userInput g
      let rest := orchestrateOutputFiles userInput outputDir inputFiles (i + 1) gs
      (⟨filename, data.length, g.length⟩ :: rest.1, .write filename data :: rest.2)

/-- replaceInputFiles from outputs.go: os.Remove on every input file, with
no test of the Replace option. -/
def replaceInputFiles (userInput : UserInput) (inputFiles : List String) :
    List FsAction :=
  inputFiles.map .remove

/-- buildOutput from outputs.go, as the trace of file-system actions it
performs.  The Go parameter packedFiles is a nil-able slice: none is Go nil
(the infeasible signal), over which the range loop of
orchestrateOutputFiles visits nothing.  The non-directory outputDir reads
inputFiles[0], modelled with headD; the theorems below never hit that read
on an empty list.  In the single-file branch only the writes happen; every
other shape also calls replaceInputFiles. -/
def buildOutput (userInput : UserInput)
    (packedFiles : Option (List (List Statement))) (inputFiles : List String) :
    List FsAction :=
  let outputDir := if userInput.isDirectory then userInput.target
    else pathDir (inputFiles.headD "")
  let acts :=
    (orchestrateOutputFiles userInput outputDir inputFiles 0 (packedFiles.getD [])).2
  if ¬userInput.isDirectory ∧ inputFiles.length = 1 then acts
  else acts ++ replaceInputFiles userInput inputFiles

/-- ProcessFiles from process.go, with the extracted statements passed in
for the file reads: on zero statements it returns before any output work;
otherwise it packs and hands the result straight to buildOutput, with no
check of the infeasible (nil) outcome. -/
def processFiles (userInput : UserInput) (files : List String)
    (allStatements : List Statement) : List FsAction :=
  if allStatements.length = 0 then []
  else buildOutput userInput (packAllStatements userInput allStatements) files

theorem orchestrate_acts_writes (ui : UserInput) (outputDir : String)
    (inputFiles : List String) :
    ∀ (i : Nat) (gs : List (List Statement)),
      ∀ a ∈ (orchestrateOutputFiles ui outputDir inputFiles i gs).2,
        ∃ p d, a = FsAction.write p d
  | _, [] => by simp [orchestrateOutputFiles]
  | i, g :: gs => by
      intro a ha
      simp only [orchestrateOutputFiles, List.mem_cons] at ha
      rcases ha with rfl | ha
      · exact ⟨_, _, rfl⟩
      · exact orchestrate_acts_writes ui outputDir inputFiles (i + 1) gs a ha

/-- C10: whenever the run is not the single-file overwrite shape (a
directory target, or an input-file count other than one), buildOutput
performs the write actions of the groups and then an os.Remove of every
input file, for every value of the Replace option: replaceInputFiles never
reads userInput.Replace, so no hypothesis on it is needed. -/
theorem buildOutput_removes_unguarded (ui : UserInput)
    (packed : Option (List (List Statement))) (files : List String)
    (hmode : ui.isDirectory = true ∨ files.length ≠ 1) :
    ∃ writes : List FsAction,
      buildOutput ui packed files = writes ++ files.map FsAction.remove ∧
      (∀ a ∈ writes, ∃ p d, a = FsAction.write p d) ∧
      ∀ f ∈ files, FsAction.remove f ∈ buildOutput ui packed files := by
  have hcond : ¬(¬ui.isDirectory = true ∧ files.length = 1) := by
    rcases hmode with h | h
    · intro hc; exact hc.1 h
    · intro hc; exact h hc.2
  have hb : buildOutput ui packed files =
      (orchestrateOutputFiles ui
        (if ui.isDirectory then ui.target else pathDir (files.headD "")) files 0
        (packed.getD [])).2 ++ files.map FsAction.remove := by
    simp only [buildOutput, replaceInputFiles, if_neg hcond]
  refine ⟨_, hb, fun a ha => orchestrate_acts_writes ui _ files 0 _ a ha,
    fun f hf => ?_⟩
  rw [hb]
  exact List.mem_append_right _ (List.mem_map_of_mem _ hf)

/-- Witness for C10: a Replace-false directory run with one packed group
and two input files removes both originals after the write. -/
theorem buildOutput_removes_unguarded_witness :
    ((⟨"policies", false, false, true, 5⟩ : UserInput).isDirectory = true ∨
      (["policies/a.json", "policies/b.json"] : List String).length ≠ 1) ∧
    (∃ writes : List FsAction,
      buildOutput ⟨"policies", false, false, true, 5⟩
          (some [[⟨[("Sid", JsonValue.str "A")], 40⟩]])
          ["policies/a.json", "policies/b.json"]
        = writes ++ (["policies/a.json", "policies/b.json"].map FsAction.remove) ∧
      (∀ a ∈ writes, ∃ p d, a = FsAction.write p d) ∧
      ∀ f ∈ ["policies/a.json", "policies/b.json"],
        FsAction.remove f ∈ buildOutput ⟨"policies", false, false, true, 5⟩
          (some [[⟨[("Sid", JsonValue.str "A")], 40⟩]])
          ["policies/a.json", "policies/b.json"]) :=
  ⟨Or.inl rfl, buildOutput_removes_unguarded _ _ _ (Or.inl rfl)⟩

/-- C1: the claim fails in directory mode.  ProcessFiles never checks the
packing result against nil, and the directory branch of buildOutput calls
replaceInputFiles unconditionally, so an infeasible packing run with a
directory target writes nothing (the range over the nil slice is empty) yet
removes every original input file: the whole trace is exactly the removes. -/
theorem processFiles_infeasible_removes (ui : UserInput) (files : List String)
    (allStatements : List Statement)
    (hne : allStatements.length ≠ 0)
    (hdir : ui.isDirectory = true)
    (hpack : packAllStatements ui allStatements = none) :
    processFiles ui files allStatements = files.map FsAction.remove := by
  have hcond : ¬(¬ui.isDirectory = true ∧ files.length = 1) := fun hc => hc.1 hdir
  simp only [processFiles, if_neg hne, hpack, buildOutput, Option.getD_none,
    orchestrateOutputFiles, replaceInputFiles, if_neg hcond, List.nil_append]

/-- Witness for C1: one oversized statement (size 6000 > 5120 - 37), a
directory target and two input files: the packing is infeasible and the run
deletes both originals while writing no output. -/
theorem processFiles_infeasible_removes_witness :
    ([(⟨[("Sid", JsonValue.str "A")], 6000⟩ : Statement)]).length ≠ 0 ∧
    (⟨"policies", false, false, true, 5⟩ : UserInput).isDirectory = true ∧
    packAllStatements ⟨"policies", false, false, true, 5⟩
      [⟨[("Sid", JsonValue.str "A")], 6000⟩] = none ∧
    processFiles ⟨"policies", false, false, true, 5⟩
      ["policies/a.json", "policies/b.json"] [⟨[("Sid", JsonValue.str "A")], 6000⟩]
      = [FsAction.remove "policies/a.json", FsAction.remove "policies/b.json"] :=
  ⟨by decide, rfl, by decide,
    by rw [processFiles_infeasible_removes _ _ _ (by decide) rfl (by decide)]; rfl⟩

end Corset
